import Mathlib

/-!
Verification development for the Bill-Monitor dashboard (`src/Bill_Monitor.py`).

The Python source is shallowly embedded below.  Strings are modelled as
`List Char` at the character level (with `String` wrappers at the API
boundary); Python `None`-able values are `Option`; code that may raise an
exception is modelled in `Except`.  The external HTTP layer is abstracted
away: functions that issue a request take the decoded upstream response as
an explicit argument.
-/

namespace BillMonitor

/-! ### Character classes

`isUp`/`isDig` model the regex classes `[A-Z]`/`[0-9]`; `isWs` models `\s`
(ASCII whitespace, matching what the normalizer ever encounters). -/

def isUp (c : Char) : Bool := 65 ≤ c.toNat && c.toNat ≤ 90

def isDig (c : Char) : Bool := 48 ≤ c.toNat && c.toNat ≤ 57

def isWs (c : Char) : Bool :=
  c.toNat == 32 || c.toNat == 9 || c.toNat == 10 || c.toNat == 13 ||
  c.toNat == 11 || c.toNat == 12

/-- ASCII upper-casing of one character, modelling `str.upper()` on the
characters this program manipulates. -/
def upChar : Char → Char
  | 'a' => 'A' | 'b' => 'B' | 'c' => 'C' | 'd' => 'D' | 'e' => 'E'
  | 'f' => 'F' | 'g' => 'G' | 'h' => 'H' | 'i' => 'I' | 'j' => 'J'
  | 'k' => 'K' | 'l' => 'L' | 'm' => 'M' | 'n' => 'N' | 'o' => 'O'
  | 'p' => 'P' | 'q' => 'Q' | 'r' => 'R' | 's' => 'S' | 't' => 'T'
  | 'u' => 'U' | 'v' => 'V' | 'w' => 'W' | 'x' => 'X' | 'y' => 'Y'
  | 'z' => 'Z'
  | c => c

theorem upChar_eq_or (c : Char) :
    upChar c = c ∨ upChar c ∈ ['A','B','C','D','E','F','G','H','I','J','K','L','M',
      'N','O','P','Q','R','S','T','U','V','W','X','Y','Z'] := by
  unfold upChar
  split <;> simp

theorem upChar_of_letter {c : Char}
    (h : c ∈ ['A','B','C','D','E','F','G','H','I','J','K','L','M',
      'N','O','P','Q','R','S','T','U','V','W','X','Y','Z']) :
    upChar c = c := by
  fin_cases h <;> rfl

theorem upChar_idem (c : Char) : upChar (upChar c) = upChar c := by
  rcases upChar_eq_or c with h | h
  · rw [h, h]
  · exact upChar_of_letter h

/-! ### String-pipeline primitives used by `normalize_bill` -/

/-- `str.strip()`, left half: drop leading whitespace. -/
def trimLeft (l : List Char) : List Char := l.dropWhile isWs

/-- `str.strip()`, right half: drop trailing whitespace. -/
def trimRight (l : List Char) : List Char := ((l.reverse).dropWhile isWs).reverse

/-- `str.strip()`. -/
def pytrim (l : List Char) : List Char := trimRight (trimLeft l)

/-- `.replace(".", "").replace("(", "").replace(")", "")`: delete every
dot and parenthesis. -/
def removeDots (l : List Char) : List Char :=
  l.filter (fun c => !(c == '.' || c == '(' || c == ')'))

/-- Worker for `re.sub(r"\s+", " ", _)`: the flag records whether the
previous character was whitespace (so a run collapses to one space). -/
def collapseGo : Bool → List Char → List Char
  | _, [] => []
  | prevWs, c :: rest =>
    if isWs c then
      if prevWs then collapseGo true rest else ' ' :: collapseGo true rest
    else c :: collapseGo false rest

/-- `re.sub(r"\s+", " ", s)`: collapse every whitespace run to one space. -/
def collapseWs (l : List Char) : List Char := collapseGo false l

/-- Step 1 of `normalize_bill`: `str(bill or "").strip().upper()`, delete
`.()`, collapse whitespace runs. -/
def step1 (l : List Char) : List Char :=
  collapseWs (removeDots ((pytrim l).map upChar))

/-- The digit part of group 2 of `re.sub(r"([A-Z]+)\s*0*([0-9]+[A-Z]*)", ...)`:
`0*` greedily eats leading zeros but `[0-9]+` keeps at least one digit. -/
def stripZeros (d : List Char) : List Char :=
  if (d.dropWhile (fun c => c == '0')).isEmpty then ['0']
  else d.dropWhile (fun c => c == '0')

/-- Fuelled worker for `re.sub(r"([A-Z]+)\s*0*([0-9]+[A-Z]*)", r"\1 \2", s)`.
At each position: if an uppercase run, then optional whitespace, then at
least one digit follows, the whole match `[A-Z]+\s*0*[0-9]+[A-Z]*` is
replaced by the letter run, one space, digits without leading zeros and
the letter suffix; otherwise a single character is emitted and scanning
resumes at the next position (Python `re.sub` semantics).  The fuel is an
upper bound on the characters still to scan; `regexSub` supplies `l.length`,
which never runs out. -/
def rsGo : Nat → List Char → List Char
  | _, [] => []
  | 0, l => l
  | f + 1, c :: rest =>
    if isUp c then
      if (((rest.dropWhile isUp).dropWhile isWs).takeWhile isDig).isEmpty then
        c :: rsGo f rest
      else
        (c :: rest.takeWhile isUp) ++ ' '
          :: (stripZeros (((rest.dropWhile isUp).dropWhile isWs).takeWhile isDig)
          ++ (((((rest.dropWhile isUp).dropWhile isWs).dropWhile isDig).takeWhile isUp)
          ++ rsGo f ((((rest.dropWhile isUp).dropWhile isWs).dropWhile isDig).dropWhile isUp)))
    else c :: rsGo f rest

/-- `re.sub(r"([A-Z]+)\s*0*([0-9]+[A-Z]*)", r"\1 \2", s)` (line 71). -/
def regexSub (l : List Char) : List Char := rsGo l.length l

/-- `STATE_PREFIX_MAP` (lines 41-48), in Python-dict insertion order. -/
def STATE_PREFIX_MAP : List (String × List (String × String)) :=
  [("Iowa", [("HB", "HF"), ("SB", "SF")]),
   ("Maine", [("HB", "LD"), ("SB", "LD")]),
   ("Nebraska", [("HB", "LB"), ("SB", "LB")]),
   ("New Jersey", [("HB", "A"), ("SB", "S")]),
   ("New Hampshire", [("HB", "H"), ("SB", "S")]),
   ("Massachusetts", [("HB", "H"), ("SB", "S")])]

def lookupPrefixTbl (state_full : String) : Option (List (String × String)) :=
  (STATE_PREFIX_MAP.find? (fun e => e.1 == state_full)).map (·.2)

/-- `s.replace(old, new, 1)`: replace the first occurrence of `old`. -/
def replaceFirst (s old new : List Char) : List Char :=
  match s with
  | [] => if old.isEmpty then new else []
  | c :: t =>
    if old.isPrefixOf (c :: t) then new ++ (c :: t).drop old.length
    else c :: replaceFirst t old new

/-- The prefix-substitution loop of `normalize_bill` (lines 67-70): for each
`(wrong, correct)` entry in table order, if the current string starts with
`wrong`, replace its first occurrence. -/
def applyPrefixTbl (tbl : List (String × String)) (bill : List Char) : List Char :=
  tbl.foldl
    (fun b e => if e.1.data.isPrefixOf b then replaceFirst b e.1.data e.2.data else b)
    bill

/-- `normalize_bill` (lines 63-72) at the character-list level. -/
def normalize_chars (l : List Char) (state_full : String) : List Char :=
  let b1 := step1 l
  let b2 := match lookupPrefixTbl state_full with
    | some tbl => applyPrefixTbl tbl b1
    | none => b1
  pytrim (regexSub b2)

/-- `normalize_bill(bill, state_full)` (lines 63-72).  The argument is
`Option String` so that `str(bill or "")` can be modelled: a `None` (or
empty) input becomes `""`. -/
def normalize_bill (bill : Option String) (state_full : String) : String :=
  ⟨normalize_chars (bill.getD "").data state_full⟩

/-- Case-insensitive comparison of two characters, as Python's
`re.IGNORECASE` does for ASCII. -/
def eqI (a b : Char) : Bool := upChar a == upChar b

/-- Does `pat` occur, case-insensitively, as a prefix of `s`? -/
def isPrefixOfI : List Char → List Char → Bool
  | [], _ => true
  | _ :: _, [] => false
  | a :: pat, b :: s => eqI a b && isPrefixOfI pat s

/-- The optional `(\([A-Z]{2}\))?\s*` tail of the `clean_bill` pattern:
consume `"(XX)"` (two letters in parentheses; `re.IGNORECASE` makes
`[A-Z]` match lower case as well) if present, then whitespace. -/
def dropParenAbbr (l : List Char) : List Char :=
  match l with
  | '(' :: a :: b :: ')' :: rest =>
    if isUp (upChar a) && isUp (upChar b) then rest.dropWhile isWs else l
  | _ => l

/-- `clean_bill(bill_raw, state_full)` (lines 74-77):
`re.sub(rf"^{re.escape(state_full)}\s*(\([A-Z]{2}\))?\s*", "", raw, flags=IGNORECASE)`
followed by `normalize_bill`.  `re.escape` makes the state name a literal,
so the pattern is a case-insensitive literal prefix match. -/
def clean_bill (bill_raw : Option String) (state_full : String) : String :=
  let raw := (pytrim (bill_raw.getD "").data)
  let stripped :=
    if isPrefixOfI state_full.data raw then
      dropParenAbbr ((raw.drop state_full.data.length).dropWhile isWs)
    else raw
  ⟨normalize_chars stripped state_full⟩

/-! ### Search layer (`_normalize`, `_iter_search_items`, `search_bill_single`,
`search_bill_id`, `search_bills_by_keyword`)

The HTTP layer is abstracted: each search function takes the decoded
upstream response as an argument.  `Response.malformed` is a body on which
`r.json()` raises; `Response.parsed status searchresult` is a decoded JSON
object (`status` is its `"status"` field, absent = `none`; a missing or
unusable `"searchresult"` is `SearchResult.fallback []`). -/

/-- One result object of a search response; every field is optional, as
`dict.get` may return `None`. -/
structure Item where
  bill_id : Option Int := none
  state : Option String := none
  bill_number : Option String := none
  number : Option String := none
  title : Option String := none
  short_title : Option String := none
  relevance : Option Int := none
  last_action_date : Option String := none
deriving Repr, DecidableEq

/-- The shape of the `searchresult` field, as `_iter_search_items`
distinguishes it: a `results` list, a `results` mapping (items are its
values in key order), or no usable `results` key (items are the values
under numeric-string keys of `searchresult` itself). -/
inductive SearchResult where
  | rlist (items : List Item)
  | rmap (items : List Item)
  | fallback (items : List Item)
deriving Repr, DecidableEq

/-- `_iter_search_items(sr)` (lines 82-88). -/
def iter_search_items : SearchResult → List Item
  | .rlist items => items
  | .rmap items => items
  | .fallback items => items

/-- A decoded upstream response body. -/
inductive Response where
  | malformed
  | parsed (status : Option String) (searchresult : SearchResult)
deriving Repr, DecidableEq

/-- `_normalize(num)` (lines 79-80): `re.sub(r"[^A-Z0-9]", "", str(num or "").upper())`. -/
def pynormalize (num : Option String) : List Char :=
  ((num.getD "").data.map upChar).filter (fun c => isUp c || isDig c)

/-- The candidate pool of `search_bill_single` (lines 100-102): the exact
normalized matches, or all items when there is no exact match
(`cand_pool = exact or items`). -/
def candPool (items : List Item) (query : String) : List Item :=
  let tgt := pynormalize (some query)
  let exact := items.filter (fun it => pynormalize it.bill_number == tgt)
  if exact.isEmpty then items else exact

/-- Python `<` on strings: lexicographic comparison by code point. -/
def strLt : List Char → List Char → Bool
  | [], [] => false
  | [], _ :: _ => true
  | _ :: _, [] => false
  | a :: s, b :: t =>
    if a.toNat < b.toNat then true
    else if b.toNat < a.toNat then false
    else strLt s t

/-- Python `<` on the sort key `(x.get("relevance", 0), x.get("last_action_date", ""))`:
lexicographic on the integer, then on the date string (code-point order). -/
def candKeyLt (a b : Item) : Bool :=
  let ra := a.relevance.getD 0
  let rb := b.relevance.getD 0
  ra < rb || (ra == rb
    && strLt (a.last_action_date.getD "").data (b.last_action_date.getD "").data)

/-- `sorted(cand_pool, key=..., reverse=True)[0]` (line 103): Python's sort
is stable, so with `reverse=True` the head is the first element whose key
is maximal.  Replacing the accumulator only on a strictly greater key
computes exactly that element. -/
def bestCandidate (pool : List Item) : Option Item :=
  pool.foldl
    (fun acc it => match acc with
      | none => some it
      | some b => if candKeyLt b it then some it else some b)
    none

/-- `search_bill_single(state_abbr, query, year)` (lines 90-104), given the
upstream response for its one request.  `Except.error ()` models an
uncaught exception (`r.json()` on a malformed body raises — there is no
`try` here, unlike `search_bills_by_keyword`).  The pair mirrors the
Python return `(bill_id, cand)`: `(none, none)` is `(None, None)`. -/
def search_bill_single (resp : Response) (query : String) :
    Except Unit (Option Int × Option Item) :=
  match resp with
  | .malformed => .error ()
  | .parsed status sr =>
    if status ≠ some "OK" then .ok (none, none)
    else
      let items := iter_search_items sr
      if items.isEmpty then .ok (none, none)
      else
        match bestCandidate (candPool items query) with
        | some cand => .ok (cand.bill_id, some cand)
        | none => .ok (none, none)  -- unreachable: the pool is nonempty

/-- Python truthiness of the `bill_id` in `if bill_id:` — `None` and `0`
are falsy. -/
def pyTruthyInt : Option Int → Bool
  | none => false
  | some n => n != 0

/-- The query variants of `search_bill_id` (line 108):
`list({normalized, bill_num, bill_num.replace(" ", ""), re.sub(r"[^0-9]", "", bill_num)})`.
Python set iteration order is implementation-defined; it is modelled as
first-occurrence order. -/
def searchVariants (bill_num : String) (state_full : String) : List String :=
  [normalize_bill (some bill_num) state_full,
   bill_num,
   ⟨bill_num.data.filter (fun c => !(c == ' '))⟩,
   ⟨bill_num.data.filter isDig⟩].dedup

/-- `search_bill_id(state_abbr, bill_num, state_full, year)` (lines 106-113):
try each variant in turn, returning the first pick whose `bill_id` is
truthy; an exception from `search_bill_single` propagates. -/
def search_bill_id (api : String → Response) (bill_num : String)
    (state_full : String) : Except Unit (Option Int × Option Item) :=
  let rec go : List String → Except Unit (Option Int × Option Item)
    | [] => .ok (none, none)
    | v :: rest =>
      match search_bill_single (api v) v with
      | .error e => .error e
      | .ok (bid, picked) => if pyTruthyInt bid then .ok (bid, picked) else go rest
  go (searchVariants bill_num state_full)

/-- Python `x or y` on strings where `None` and `""` are falsy. -/
def pyOrS (a b : Option String) : Option String :=
  match a with
  | none => b
  | some s => if s.isEmpty then b else a

/-- `str.upper()` at the `String` level. -/
def strUpper (s : String) : String := ⟨s.data.map upChar⟩

/-- One row of the keyword-search output (lines 131-138). -/
structure ResultRow where
  bill_id : Option Int
  state : String
  bill_number : Option String
  title : String
  relevance : Option Int
  last_action_date : Option String
deriving Repr, DecidableEq

/-- `search_bills_by_keyword(state_abbr, query, year, max_results)`
(lines 115-139), given the upstream response for its one request.  The
`try/except` around `r.json()` turns a malformed body into `[]`; a non-OK
status yields `[]`; otherwise up to `max_results` items are projected to
rows.  The function is total: it never raises. -/
def search_bills_by_keyword (resp : Response) (state_abbr : Option String)
    (max_results : Nat := 200) : List ResultRow :=
  match resp with
  | .malformed => []
  | .parsed status sr =>
    if status ≠ some "OK" then []
    else
      ((iter_search_items sr).take max_results).map (fun it =>
        { bill_id := it.bill_id
          state := strUpper ((pyOrS (pyOrS it.state state_abbr) (some "")).getD "")
          bill_number := pyOrS it.bill_number it.number
          title := (pyOrS (pyOrS it.title it.short_title) (some "")).getD ""
          relevance := it.relevance
          last_action_date := it.last_action_date })

/-! ### Bill detail, projection (`process_bill`), derived columns (`derive_dates`) -/

structure Sponsor where
  party : Option String := none
deriving Repr, DecidableEq

structure Session where
  year_start : Option Nat := none
  year_end : Option Nat := none
deriving Repr, DecidableEq

/-- The `bill` object of a `getBill` response, with the fields
`process_bill` reads; absent keys are `none`. -/
structure BillDetail where
  bill_id : Option Int := none
  state : Option String := none
  bill_number : Option String := none
  title : Option String := none
  last_action : Option String := none
  last_action_date : Option String := none
  session : Option Session := none
  sponsors : List Sponsor := []
  completed : Option Int := none
deriving Repr, DecidableEq

/-- The `flat_data` row built by `process_bill` (lines 151-160). -/
structure FlatRecord where
  bill_id : Option Int
  state : Option String
  bill_number : Option String
  title : Option String
  last_action : Option String
  last_action_date : Option String
  session_start : Option Nat
  session_end : Option Nat
deriving Repr, DecidableEq

/-- The `summary_data` row built by `process_bill` (lines 163-174). -/
structure SummaryRecord where
  state : Option String
  bill_number : Option String
  title : Option String
  dem_sponsors : Nat
  rep_sponsors : Nat
  session_start : Option Nat
  session_end : Option Nat
  last_action_date : Option String
  last_action : Option String
  completed : Option Int
deriving Repr, DecidableEq

/-- `process_bill(bill_detail)` (lines 149-175).  `s` is
`bill_detail.get("session", {}) or {}`; the sponsor tallies count the
sponsors whose `party` equals `"D"` resp. `"R"`. -/
def process_bill (bd : BillDetail) : FlatRecord × SummaryRecord :=
  let s := bd.session.getD {}
  let dem_count := (bd.sponsors.filter (fun sp => sp.party == some "D")).length
  let rep_count := (bd.sponsors.filter (fun sp => sp.party == some "R")).length
  ({ bill_id := bd.bill_id
     state := bd.state
     bill_number := bd.bill_number
     title := bd.title
     last_action := bd.last_action
     last_action_date := bd.last_action_date
     session_start := s.year_start
     session_end := s.year_end },
   { state := bd.state
     bill_number := bd.bill_number
     title := bd.title
     dem_sponsors := dem_count
     rep_sponsors := rep_count
     session_start := s.year_start
     session_end := s.year_end
     last_action_date := bd.last_action_date
     last_action := bd.last_action
     completed := bd.completed })

/-- Decimal digit characters, for the decimal printer modelling Python
`str(int)` / pandas `astype(str)`. -/
def digitChar : Nat → Char
  | 0 => '0' | 1 => '1' | 2 => '2' | 3 => '3' | 4 => '4'
  | 5 => '5' | 6 => '6' | 7 => '7' | 8 => '8' | 9 => '9'
  | _ => '*'

/-- Fuelled decimal printer (the fuel bounds the recursion depth;
`natToStr` supplies `n + 1`, which never runs out). -/
def natDigitsGo : Nat → Nat → List Char
  | 0, _ => []
  | f + 1, n => if n < 10 then [digitChar n] else natDigitsGo f (n / 10) ++ [digitChar (n % 10)]

/-- `str(n)` for a natural number. -/
def natToStr (n : Nat) : String := ⟨natDigitsGo (n + 1) n⟩

/-- Numeric value of a digit run. -/
def valDigits (l : List Char) : Nat := l.foldl (fun a c => a * 10 + (c.toNat - 48)) 0

/-- Shallow model of `pd.to_datetime(s, errors="coerce")` on the strings
this app feeds it: parse a strict `"YYYY-MM-DD"` ISO date, yielding `none`
(`NaT`) on anything else. -/
def parseYMD (s : String) : Option (Nat × Nat × Nat) :=
  let l := s.data
  let ys := l.takeWhile isDig
  match l.dropWhile isDig with
  | '-' :: r2 =>
    let ms := r2.takeWhile isDig
    match r2.dropWhile isDig with
    | '-' :: r4 =>
      let ds := r4.takeWhile isDig
      if ys.isEmpty || ms.isEmpty || ds.isEmpty || !(r4.dropWhile isDig).isEmpty then none
      else
        let y := valDigits ys
        let m := valDigits ms
        let d := valDigits ds
        if 1 ≤ m ∧ m ≤ 12 ∧ 1 ≤ d ∧ d ≤ 31 then some (y, m, d) else none
    | _ => none
  | _ => none

/-- pandas `.astype(str)` on an object column holding ints or `None`. -/
def pyStrOfOptNat : Option Nat → String
  | some n => natToStr n
  | none => "None"

/-- The three derived columns of `derive_dates` (lines 177-181) for one
summary row: `start_date = to_datetime(str(session_start) + "-01-01")`,
`end_date = to_datetime(last_action_date)`,
`completion_label = completed.map({1: "Completed", 0: "Not Completed"})`
(a dict lookup: any other value maps to `NaN`, here `none`). -/
structure DerivedRow where
  start_date : Option (Nat × Nat × Nat)
  end_date : Option (Nat × Nat × Nat)
  completion_label : Option String
deriving Repr, DecidableEq

def derive_dates_row (r : SummaryRecord) : DerivedRow :=
  { start_date := parseYMD ⟨(pyStrOfOptNat r.session_start).data ++ ('-' :: '0' :: '1' :: '-' :: '0' :: '1' :: [])⟩
    end_date := match r.last_action_date with
      | some s => parseYMD s
      | none => none
    completion_label := match r.completed with
      | some n => if n = 1 then some "Completed" else if n = 0 then some "Not Completed" else none
      | none => none }

/-! ### Session state (`st.session_state` and the button handlers) -/

/-- The three session collections (lines 53-58), with data frames modelled
as lists of rows. -/
structure SessionState where
  flat_data : List FlatRecord
  summary_data : List SummaryRecord
  search_results : List ResultRow
deriving Repr, DecidableEq

def emptySession : SessionState := ⟨[], [], []⟩

/-- One successful iteration of the "Add selected results" loop
(lines 249-256): `pd.concat` appends the projected flat row and summary
row of one fetched bill detail to both collections. -/
def addRecord (st : SessionState) (bd : BillDetail) : SessionState :=
  let fr := process_bill bd
  { st with
    flat_data := st.flat_data ++ [fr.1]
    summary_data := st.summary_data ++ [fr.2] }

/-- The whole "Add selected results" handler (lines 245-258): for each
chosen row the bill detail is fetched (`none` models a failed
`get_bill`, which appends nothing), then the pending search results are
cleared. -/
def addSelectedResults (st : SessionState) (details : List (Option BillDetail)) :
    SessionState :=
  let st' := details.foldl
    (fun s d => match d with
      | some bd => addRecord s bd
      | none => s)
    st
  { st' with search_results := [] }

/-- The "Reset All Data" handler (lines 188-192): all three collections
become empty. -/
def resetAll (_st : SessionState) : SessionState := emptySession

/-! ### Generic helper lemmas -/

theorem length_dropWhile_le (p : α → Bool) (l : List α) :
    (l.dropWhile p).length ≤ l.length := by
  induction l with
  | nil => simp
  | cons a l ih =>
    rw [List.dropWhile_cons]
    split
    · exact Nat.le_trans ih (Nat.le_succ _)
    · simp

theorem filter_three_partition {α : Type} (p q : α → Bool) (l : List α)
    (hpq : ∀ x, ¬(p x = true ∧ q x = true)) :
    (l.filter p).length + (l.filter q).length
      + (l.filter (fun x => !p x && !q x)).length = l.length := by
  induction l with
  | nil => simp
  | cons a l ih =>
    by_cases hp : p a = true
    · have hq : q a = false := by
        rcases Bool.eq_false_or_eq_true (q a) with h | h
        · exact absurd ⟨hp, h⟩ (hpq a)
        · exact h
      simp [List.filter_cons, hp, hq]
      omega
    · rw [Bool.not_eq_true] at hp
      by_cases hq : q a = true
      · simp [List.filter_cons, hp, hq]
        omega
      · rw [Bool.not_eq_true] at hq
        simp [List.filter_cons, hp, hq]
        omega

/-! ### C7 — sponsor-party tallies of `process_bill` -/

/-- **C7.** For every bill detail, `process_bill` counts as `dem_sponsors`
exactly the sponsors whose party code equals `"D"` and as `rep_sponsors`
exactly those whose party code equals `"R"`; all other sponsors are
counted in neither tally (the three groups partition the sponsor list). -/
theorem c7_sponsor_tally (bd : BillDetail) :
    (process_bill bd).2.dem_sponsors
        = (bd.sponsors.filter (fun sp => sp.party == some "D")).length
    ∧ (process_bill bd).2.rep_sponsors
        = (bd.sponsors.filter (fun sp => sp.party == some "R")).length
    ∧ (process_bill bd).2.dem_sponsors + (process_bill bd).2.rep_sponsors
        + (bd.sponsors.filter
            (fun sp => !(sp.party == some "D") && !(sp.party == some "R"))).length
        = bd.sponsors.length := by
  refine ⟨rfl, rfl, ?_⟩
  show (bd.sponsors.filter (fun sp => sp.party == some "D")).length
      + (bd.sponsors.filter (fun sp => sp.party == some "R")).length + _ = _
  apply filter_three_partition
  intro sp ⟨h1, h2⟩
  rw [beq_iff_eq] at h1 h2
  rw [h1] at h2
  exact absurd (Option.some.inj h2) (by decide)

/-! ### C6 — aligned flat/summary collections and reset -/

theorem foldl_addRecord_flat (ds : List BillDetail) :
    ∀ st : SessionState, (ds.foldl addRecord st).flat_data
      = st.flat_data ++ ds.map (fun d => (process_bill d).1) := by
  induction ds with
  | nil => intro st; simp
  | cons d ds ih =>
    intro st
    rw [List.foldl_cons, ih]
    simp [addRecord]

theorem foldl_addRecord_summary (ds : List BillDetail) :
    ∀ st : SessionState, (ds.foldl addRecord st).summary_data
      = st.summary_data ++ ds.map (fun d => (process_bill d).2) := by
  induction ds with
  | nil => intro st; simp
  | cons d ds ih =>
    intro st
    rw [List.foldl_cons, ih]
    simp [addRecord]

/-- **C6.** After any sequence of successful adds starting from the empty
session, the flat and summary collections are the index-aligned images of
the added bill details (hence both have length `N` after `N` adds, and
index `i` in each refers to the same bill), and `resetAll` empties all
three collections. -/
theorem c6_aligned_collections (ds : List BillDetail) (st : SessionState) (i : Nat) :
    (ds.foldl addRecord emptySession).flat_data.length = ds.length
    ∧ (ds.foldl addRecord emptySession).summary_data.length = ds.length
    ∧ (ds.foldl addRecord emptySession).flat_data[i]?
        = (ds[i]?).map (fun d => (process_bill d).1)
    ∧ (ds.foldl addRecord emptySession).summary_data[i]?
        = (ds[i]?).map (fun d => (process_bill d).2)
    ∧ resetAll st = emptySession := by
  have hf := foldl_addRecord_flat ds emptySession
  have hs := foldl_addRecord_summary ds emptySession
  simp only [emptySession, List.nil_append] at hf hs
  simp only [emptySession]
  refine ⟨?_, ?_, ?_, ?_, rfl⟩
  · rw [hf]; exact List.length_map _ _
  · rw [hs]; exact List.length_map _ _
  · rw [hf]; exact List.getElem?_map _ _ _
  · rw [hs]; exact List.getElem?_map _ _ _

/-! ### C3 — the exact-match filter / full-pool fallback of `search_bill_single` -/

/-- **C3.** For every non-empty candidate list and query variant: when some
candidate's normalized bill number equals the normalized variant, the pool
is exactly the subset of candidates with that property; when none has it,
the pool falls back to the full unfiltered list. -/
theorem c3_exact_match_pool (items : List Item) (q : String) (_hne : items ≠ []) :
    ((∃ it ∈ items, pynormalize it.bill_number = pynormalize (some q)) →
      ∀ it, it ∈ candPool items q
        ↔ it ∈ items ∧ pynormalize it.bill_number = pynormalize (some q))
    ∧ ((∀ it ∈ items, pynormalize it.bill_number ≠ pynormalize (some q)) →
      candPool items q = items) := by
  constructor
  · rintro ⟨w, hw, hweq⟩ it
    have hne : (items.filter
        (fun it => pynormalize it.bill_number == pynormalize (some q))).isEmpty = false := by
      rcases Bool.eq_false_or_eq_true (items.filter
          (fun it => pynormalize it.bill_number == pynormalize (some q))).isEmpty with h | h
      · rw [List.isEmpty_iff] at h
        have : w ∈ (items.filter
            (fun it => pynormalize it.bill_number == pynormalize (some q))) :=
          List.mem_filter.mpr ⟨hw, beq_iff_eq.mpr hweq⟩
        rw [h] at this
        exact absurd this (List.not_mem_nil w)
      · exact h
    simp only [candPool, hne, Bool.false_eq_true, if_false, List.mem_filter, beq_iff_eq]
  · intro hall
    have hnil : items.filter
        (fun it => pynormalize it.bill_number == pynormalize (some q)) = [] := by
      rw [List.filter_eq_nil_iff]
      intro it hit
      simp only [beq_iff_eq]
      exact hall it hit
    simp [candPool, hnil]

/-- Witness for C3, on the spec's own example: for candidates with bill
numbers `["HB7", "HB70"]` and query `"HB7"`, only the `"HB7"` candidate is
in the pool. -/
theorem c3_witness :
    ({ bill_number := some "HB7" } : Item)
        ∈ candPool [{ bill_number := some "HB7" }, { bill_number := some "HB70" }] "HB7"
    ∧ ({ bill_number := some "HB70" } : Item)
        ∉ candPool [{ bill_number := some "HB7" }, { bill_number := some "HB70" }] "HB7" := by
  have h := (c3_exact_match_pool
      [{ bill_number := some "HB7" }, { bill_number := some "HB70" }] "HB7"
      (by simp)).1
      ⟨{ bill_number := some "HB7" }, by simp, by decide⟩
  constructor
  · exact (h { bill_number := some "HB7" }).mpr ⟨by simp, by decide⟩
  · intro hmem
    have := ((h { bill_number := some "HB70" }).mp hmem).2
    exact absurd this (by decide)

/-! ### C4 — best-candidate selection by descending (relevance, date) key -/

theorem strLt_irrefl (a : List Char) : strLt a a = false := by
  induction a with
  | nil => rfl
  | cons c s ih => simp [strLt, ih]

theorem strLt_trans {a b c : List Char} (h1 : strLt a b = true) (h2 : strLt b c = true) :
    strLt a c = true := by
  induction a generalizing b c with
  | nil =>
    cases c with
    | nil => cases b <;> simp_all [strLt]
    | cons z t => rfl
  | cons x s ih =>
    cases b with
    | nil => simp [strLt] at h1
    | cons y t =>
      cases c with
      | nil => simp [strLt] at h2
      | cons z u =>
        simp only [strLt] at h1 h2 ⊢
        split at h1 <;> split at h2 <;> rename_i hxy hyz
        · rw [if_pos (Nat.lt_trans hxy hyz)]
        · split at h2 <;> rename_i hzy
          · simp at h2
          · have : y.toNat = z.toNat := Nat.le_antisymm (Nat.le_of_not_lt hzy) (Nat.le_of_not_lt hyz)
            rw [if_pos (this ▸ hxy)]
        · split at h1 <;> rename_i hyx
          · simp at h1
          · have : x.toNat = y.toNat := Nat.le_antisymm (Nat.le_of_not_lt hyx) (Nat.le_of_not_lt hxy)
            rw [if_pos (this ▸ hyz)]
        · split at h1 <;> rename_i hyx
          · simp at h1
          · split at h2 <;> rename_i hzy
            · simp at h2
            · have hxyeq : x.toNat = y.toNat :=
                Nat.le_antisymm (Nat.le_of_not_lt hyx) (Nat.le_of_not_lt hxy)
              have hyzeq : y.toNat = z.toNat :=
                Nat.le_antisymm (Nat.le_of_not_lt hzy) (Nat.le_of_not_lt hyz)
              rw [if_neg (by omega), if_neg (by omega)]
              exact ih h1 h2

theorem char_eq_of_toNat_eq {a b : Char} (h : a.toNat = b.toNat) : a = b := by
  apply Char.ext
  apply UInt32.ext
  unfold Char.toNat at h
  exact h

theorem strLt_total {a b : List Char} (h1 : strLt a b = false) (h2 : strLt b a = false) :
    a = b := by
  induction a generalizing b with
  | nil => cases b with
    | nil => rfl
    | cons y t => simp [strLt] at h1
  | cons x s ih =>
    cases b with
    | nil => simp [strLt] at h2
    | cons y t =>
      simp only [strLt] at h1 h2
      by_cases hxy : x.toNat < y.toNat
      · rw [if_pos hxy] at h1; simp at h1
      · by_cases hyx : y.toNat < x.toNat
        · rw [if_pos hyx] at h2; simp at h2
        · rw [if_neg hxy, if_neg hyx] at h1
          rw [if_neg hyx, if_neg hxy] at h2
          have hx : x.toNat = y.toNat :=
            Nat.le_antisymm (Nat.le_of_not_lt hyx) (Nat.le_of_not_lt hxy)
          rw [char_eq_of_toNat_eq hx, ih h1 h2]

/-- Python `<=` on strings (code-point lexicographic). -/
def dateLe (a b : List Char) : Prop := strLt a b = true ∨ a = b

theorem dateLe_refl (a : List Char) : dateLe a a := Or.inr rfl

theorem dateLe_trans {a b c : List Char} (h1 : dateLe a b) (h2 : dateLe b c) : dateLe a c := by
  rcases h1 with h1 | rfl
  · rcases h2 with h2 | rfl
    · exact Or.inl (strLt_trans h1 h2)
    · exact Or.inl h1
  · exact h2

/-- The (non-strict) compound-key order of line 103: `c` is at least as
good as `d` when `d`'s relevance is lower, or equal with a date no later. -/
def keyGe (c d : Item) : Prop :=
  d.relevance.getD 0 < c.relevance.getD 0
  ∨ (d.relevance.getD 0 = c.relevance.getD 0
      ∧ dateLe (d.last_action_date.getD "").data (c.last_action_date.getD "").data)

theorem keyGe_refl (c : Item) : keyGe c c := Or.inr ⟨rfl, dateLe_refl _⟩

theorem keyGe_trans {a b c : Item} (h1 : keyGe a b) (h2 : keyGe b c) : keyGe a c := by
  rcases h1 with h1 | ⟨h1e, h1d⟩ <;> rcases h2 with h2 | ⟨h2e, h2d⟩
  · exact Or.inl (lt_trans h2 h1)
  · exact Or.inl (lt_of_eq_of_lt h2e h1)
  · exact Or.inl (lt_of_lt_of_eq h2 h1e)
  · exact Or.inr ⟨h2e.trans h1e, dateLe_trans h2d h1d⟩

theorem keyGe_of_not_lt {a b : Item} (h : candKeyLt a b = false) : keyGe a b := by
  unfold candKeyLt at h
  simp only [Bool.or_eq_false_iff, Bool.and_eq_false_iff, beq_eq_false_iff_ne, ne_eq,
    decide_eq_false_iff_not] at h
  obtain ⟨h1, h2⟩ := h
  rcases lt_trichotomy (b.relevance.getD 0) (a.relevance.getD 0) with h | h | h
  · exact Or.inl h
  · refine Or.inr ⟨h, ?_⟩
    rcases h2 with h2 | h2
    · exact absurd h.symm h2
    · rcases Bool.eq_false_or_eq_true
        (strLt (b.last_action_date.getD "").data (a.last_action_date.getD "").data) with hb | hb
      · exact Or.inl hb
      · exact Or.inr (strLt_total hb h2)
  · exact absurd h h1

theorem keyGe_of_lt {a b : Item} (h : candKeyLt a b = true) : keyGe b a := by
  unfold candKeyLt at h
  simp only [Bool.or_eq_true, Bool.and_eq_true, beq_iff_eq, decide_eq_true_eq] at h
  rcases h with h | ⟨he, hd⟩
  · exact Or.inl h
  · exact Or.inr ⟨he, Or.inl hd⟩

theorem bestCandidate_go (l : List Item) :
    ∀ b : Item, ∃ c, l.foldl
        (fun acc it => match acc with
          | none => some it
          | some b => if candKeyLt b it then some it else some b)
        (some b) = some c
      ∧ (c = b ∨ c ∈ l) ∧ keyGe c b ∧ ∀ d ∈ l, keyGe c d := by
  induction l with
  | nil => intro b; exact ⟨b, rfl, Or.inl rfl, keyGe_refl b, by simp⟩
  | cons it rest ih =>
    intro b
    rw [List.foldl_cons]
    rcases Bool.eq_false_or_eq_true (candKeyLt b it) with hlt | hlt
    · obtain ⟨c, hc, hmem, hge, hall⟩ := ih it
      refine ⟨c, by simpa [hlt] using hc, ?_, ?_, ?_⟩
      · rcases hmem with h | h
        · exact Or.inr (h ▸ List.mem_cons_self it rest)
        · exact Or.inr (List.mem_cons_of_mem _ h)
      · exact keyGe_trans hge (keyGe_of_lt hlt)
      · intro d hd
        rcases List.mem_cons.mp hd with h | h
        · rw [h]; exact hge
        · exact hall d h
    · obtain ⟨c, hc, hmem, hge, hall⟩ := ih b
      refine ⟨c, by simpa [hlt] using hc, ?_, hge, ?_⟩
      · rcases hmem with h | h
        · exact Or.inl h
        · exact Or.inr (List.mem_cons_of_mem _ h)
      · intro d hd
        rcases List.mem_cons.mp hd with h | h
        · rw [h]; exact keyGe_trans hge (keyGe_of_not_lt hlt)
        · exact hall d h

/-- **C4.** For every non-empty candidate pool, `bestCandidate` (the model
of `sorted(pool, key=..., reverse=True)[0]`) picks a member of the pool
that is maximal under the compound descending key: every other candidate
either has strictly lower relevance, or equal relevance and a last-action
date that is not later. -/
theorem c4_best_candidate (pool : List Item) (h : pool ≠ []) :
    ∃ c, bestCandidate pool = some c ∧ c ∈ pool
      ∧ ∀ d ∈ pool,
          d.relevance.getD 0 < c.relevance.getD 0
          ∨ (d.relevance.getD 0 = c.relevance.getD 0
              ∧ dateLe (d.last_action_date.getD "").data (c.last_action_date.getD "").data) := by
  match pool, h with
  | p :: rest, _ =>
    obtain ⟨c, hc, hmem, hge, hall⟩ := bestCandidate_go rest p
    refine ⟨c, ?_, ?_, ?_⟩
    · unfold bestCandidate
      rw [List.foldl_cons]
      exact hc
    · rcases hmem with h | h
      · exact h ▸ List.mem_cons_self p rest
      · exact List.mem_cons_of_mem _ h
    · intro d hd
      rcases List.mem_cons.mp hd with h | h
      · rw [h]; exact hge
      · exact hall d h

/-- Witness for C4, on the spec's tie-break example: two candidates with
equal relevance and different last-action dates — the later date wins. -/
theorem c4_witness :
    (([{ relevance := some 50, last_action_date := some "2024-01-01" },
       { relevance := some 50, last_action_date := some "2024-02-01" }] : List Item) ≠ [])
    ∧ (∃ c, bestCandidate
          [{ relevance := some 50, last_action_date := some "2024-01-01" },
           { relevance := some 50, last_action_date := some "2024-02-01" }] = some c
        ∧ c ∈ ([{ relevance := some 50, last_action_date := some "2024-01-01" },
                { relevance := some 50, last_action_date := some "2024-02-01" }] : List Item)
        ∧ ∀ d ∈ ([{ relevance := some 50, last_action_date := some "2024-01-01" },
                  { relevance := some 50, last_action_date := some "2024-02-01" }] : List Item),
            d.relevance.getD 0 < c.relevance.getD 0
            ∨ (d.relevance.getD 0 = c.relevance.getD 0
                ∧ dateLe (d.last_action_date.getD "").data (c.last_action_date.getD "").data))
    ∧ bestCandidate
          [({ relevance := some 50, last_action_date := some "2024-01-01" } : Item),
           { relevance := some 50, last_action_date := some "2024-02-01" }]
        = some { relevance := some 50, last_action_date := some "2024-02-01" } := by
  refine ⟨by simp, c4_best_candidate _ (by simp), by decide⟩

/-! ### C2 — error handling of the single-variant bill-id search

The claim says a non-OK status *and* a malformed JSON body are both
treated as a miss without raising.  The code agrees for a non-OK status
(and for a response without items), but `search_bill_single` calls
`r.json()` with no `try` (line 93), so a malformed body raises. -/

/-- **C2 (counterexample).** A malformed upstream body makes
`search_bill_single` raise (model: `Except.error`), which is *not* the
not-found result — contradicting the claim that malformed JSON is treated
identically to NotFound without raising. -/
theorem c2_counterexample :
    search_bill_single Response.malformed "HB 1" = Except.error ()
    ∧ search_bill_single Response.malformed "HB 1"
        ≠ Except.ok ((none : Option Int), (none : Option Item)) := by
  refine ⟨rfl, ?_⟩
  intro h
  exact Except.noConfusion ((rfl : search_bill_single Response.malformed "HB 1"
    = Except.error ()) ▸ h)

/-- **C2 (amended).** For every single-variant search, a response whose
status is not `"OK"`, or one that yields no result items, is treated as a
miss: the search returns the not-found pair `(None, None)` without
raising.  (A malformed JSON body, by contrast, raises to the caller.) -/
theorem c2_amended_upstream_error (status : Option String) (sr : SearchResult) (q : String) :
    (status ≠ some "OK" →
      search_bill_single (Response.parsed status sr) q = Except.ok (none, none))
    ∧ (iter_search_items sr = [] →
      search_bill_single (Response.parsed status sr) q = Except.ok (none, none)) := by
  constructor
  · intro h
    simp [search_bill_single, h]
  · intro h
    by_cases hs : status = some "OK"
    · simp [search_bill_single, hs, h]
    · simp [search_bill_single, hs]

/-- Witness for C2: a concrete `"ERROR"`-status response and a concrete
empty-result response are both treated as not-found. -/
theorem c2_witness :
    ((some "ERROR" : Option String) ≠ some "OK")
    ∧ search_bill_single (Response.parsed (some "ERROR") (SearchResult.rlist [])) "HB 1"
        = Except.ok (none, none)
    ∧ iter_search_items (SearchResult.fallback []) = []
    ∧ search_bill_single (Response.parsed (some "OK") (SearchResult.fallback [])) "HB 1"
        = Except.ok (none, none) := by
  refine ⟨by decide, ?_, rfl, ?_⟩
  · exact (c2_amended_upstream_error (some "ERROR") (SearchResult.rlist []) "HB 1").1 (by decide)
  · exact (c2_amended_upstream_error (some "OK") (SearchResult.fallback []) "HB 1").2 rfl

/-! ### C8 — error handling of the keyword search -/

/-- **C8.** The keyword search never raises (it is a total function into
result lists): a malformed body yields `[]` (the `try/except` of
line 121-124), a non-OK status yields `[]`, and a response with zero
result items yields `[]`. -/
theorem c8_keyword_search_errors (sa : Option String) (status : Option String)
    (sr : SearchResult) (mr : Nat) :
    search_bills_by_keyword Response.malformed sa mr = []
    ∧ (status ≠ some "OK" →
        search_bills_by_keyword (Response.parsed status sr) sa mr = [])
    ∧ (iter_search_items sr = [] →
        search_bills_by_keyword (Response.parsed status sr) sa mr = []) := by
  refine ⟨rfl, ?_, ?_⟩
  · intro h
    simp [search_bills_by_keyword, h]
  · intro h
    by_cases hs : status = some "OK"
    · simp [search_bills_by_keyword, hs, h]
    · simp [search_bills_by_keyword, hs]

/-- Witness for C8 at concrete inputs. -/
theorem c8_witness :
    search_bills_by_keyword Response.malformed (some "TX") 200 = []
    ∧ ((some "ERROR" : Option String) ≠ some "OK")
    ∧ search_bills_by_keyword (Response.parsed (some "ERROR") (SearchResult.rlist []))
        (some "TX") 200 = []
    ∧ search_bills_by_keyword (Response.parsed (some "OK") (SearchResult.rlist []))
        (some "TX") 200 = [] := by
  obtain ⟨h1, h2, h3⟩ :=
    c8_keyword_search_errors (some "TX") (some "ERROR") (SearchResult.rlist []) 200
  refine ⟨h1, by decide, h2 (by decide), ?_⟩
  exact (c8_keyword_search_errors (some "TX") (some "OK") (SearchResult.rlist []) 200).2.2 rfl

/-! ### C5 — derived columns recomputed on read

`completed.map({1: "Completed", 0: "Not Completed"})` is a pandas dict
lookup: a flag of `1` gives `"Completed"`, `0` gives `"Not Completed"`,
and any other value (including a missing one) gives `NaN` — *not*
`"Not Completed"`, which refutes the claim's "otherwise" clause. -/

theorem digitChar_isDig {k : Nat} (hk : k < 10) : isDig (digitChar k) = true := by
  interval_cases k <;> decide

theorem digitChar_val {k : Nat} (hk : k < 10) : (digitChar k).toNat - 48 = k := by
  interval_cases k <;> decide

theorem valDigits_append_one (l : List Char) (c : Char) :
    valDigits (l ++ [c]) = valDigits l * 10 + (c.toNat - 48) := by
  unfold valDigits
  rw [List.foldl_append]
  rfl

theorem natDigitsGo_spec : ∀ f n, n < f →
    natDigitsGo f n ≠ [] ∧ (∀ c ∈ natDigitsGo f n, isDig c = true)
      ∧ valDigits (natDigitsGo f n) = n := by
  intro f
  induction f with
  | zero => intro n hn; exact absurd hn (Nat.not_lt_zero n)
  | succ f ih =>
    intro n hn
    by_cases h10 : n < 10
    · refine ⟨by simp [natDigitsGo, h10], ?_, ?_⟩
      · intro c hc
        simp only [natDigitsGo, if_pos h10, List.mem_singleton] at hc
        rw [hc]
        exact digitChar_isDig h10
      · simp only [natDigitsGo, if_pos h10]
        show valDigits [digitChar n] = n
        unfold valDigits
        simp [digitChar_val h10]
    · have hdiv : n / 10 < f := by
        have h1 : n / 10 < n := Nat.div_lt_self (by omega) (by omega)
        omega
      obtain ⟨ihne, ihdig, ihval⟩ := ih (n / 10) hdiv
      rw [show natDigitsGo (f + 1) n
          = natDigitsGo f (n / 10) ++ [digitChar (n % 10)] by
        simp [natDigitsGo, h10]]
      have hmod : n % 10 < 10 := Nat.mod_lt _ (by omega)
      refine ⟨by simp, ?_, ?_⟩
      · intro c hc
        rcases List.mem_append.mp hc with h | h
        · exact ihdig c h
        · rw [List.mem_singleton.mp h]
          exact digitChar_isDig hmod
      · rw [valDigits_append_one, ihval, digitChar_val hmod]
        omega

theorem natToStr_spec (n : Nat) :
    (natToStr n).data ≠ [] ∧ (∀ c ∈ (natToStr n).data, isDig c = true)
      ∧ valDigits (natToStr n).data = n :=
  natDigitsGo_spec (n + 1) n (Nat.lt_succ_self n)

theorem parseYMD_jan1 (y : Nat) :
    parseYMD ⟨(natToStr y).data ++ ('-' :: '0' :: '1' :: '-' :: '0' :: '1' :: [])⟩
      = some (y, 1, 1) := by
  obtain ⟨hne, hdig, hval⟩ := natToStr_spec y
  unfold parseYMD
  simp only
  rw [List.takeWhile_append_of_pos hdig, List.dropWhile_append_of_pos hdig]
  rw [show List.dropWhile isDig ('-' :: '0' :: '1' :: '-' :: '0' :: '1' :: [])
      = '-' :: '0' :: '1' :: '-' :: '0' :: '1' :: [] from rfl]
  simp only
  rw [show List.takeWhile isDig ('0' :: '1' :: '-' :: '0' :: '1' :: [])
      = ['0', '1'] from rfl]
  rw [show List.dropWhile isDig ('0' :: '1' :: '-' :: '0' :: '1' :: [])
      = '-' :: '0' :: '1' :: [] from rfl]
  simp only
  rw [show List.takeWhile isDig ('0' :: '1' :: []) = ['0', '1'] from rfl]
  rw [show List.dropWhile isDig ('0' :: '1' :: []) = [] from rfl]
  rw [show List.takeWhile isDig ('-' :: '0' :: '1' :: '-' :: '0' :: '1' :: []) = [] from rfl,
    List.append_nil]
  rw [if_neg (by simp [List.isEmpty_iff, hne])]
  rw [if_pos (by decide)]
  rw [hval]
  rfl

/-- **C5 (amended).** For every stored summary record, the derived fields
recomputed on read satisfy: `completion_label` is `"Completed"` when the
completion flag is `1`, `"Not Completed"` when it is `0`, and missing
(`NaN`) for any other or absent flag value; `start_date` is January 1 of
the `session_start` year (missing when `session_start` is absent); and
`end_date` is the parsed `last_action_date`. -/
theorem c5_derived_fields (r : SummaryRecord) :
    (r.completed = some 1 →
      (derive_dates_row r).completion_label = some "Completed")
    ∧ (r.completed = some 0 →
      (derive_dates_row r).completion_label = some "Not Completed")
    ∧ (∀ n : Int, r.completed = some n → n ≠ 1 → n ≠ 0 →
      (derive_dates_row r).completion_label = none)
    ∧ (r.completed = none → (derive_dates_row r).completion_label = none)
    ∧ (∀ y : Nat, r.session_start = some y →
      (derive_dates_row r).start_date = some (y, 1, 1))
    ∧ (r.session_start = none → (derive_dates_row r).start_date = none)
    ∧ (derive_dates_row r).end_date
        = (match r.last_action_date with
            | some s => parseYMD s
            | none => none) := by
  refine ⟨?_, ?_, ?_, ?_, ?_, ?_, rfl⟩
  · intro h
    simp [derive_dates_row, h]
  · intro h
    simp [derive_dates_row, h]
  · intro n h hn1 hn0
    simp [derive_dates_row, h, hn1, hn0]
  · intro h
    simp [derive_dates_row, h]
  · intro y h
    show parseYMD ⟨(pyStrOfOptNat r.session_start).data ++ _⟩ = _
    rw [h]
    exact parseYMD_jan1 y
  · intro h
    show parseYMD ⟨(pyStrOfOptNat r.session_start).data ++ _⟩ = _
    rw [h]
    rfl

/-- **C5 (counterexample).** A stored record whose completion flag is `2`
(not `0`/`1`) gets a missing `completion_label`, not `"Not Completed"` as
the claim's "otherwise" clause requires. -/
theorem c5_counterexample :
    ({ state := none, bill_number := none, title := none, dem_sponsors := 0,
       rep_sponsors := 0, session_start := none, session_end := none,
       last_action_date := none, last_action := none,
       completed := some 2 } : SummaryRecord).completed ≠ some 1
    ∧ (derive_dates_row
        { state := none, bill_number := none, title := none, dem_sponsors := 0,
          rep_sponsors := 0, session_start := none, session_end := none,
          last_action_date := none, last_action := none,
          completed := some 2 }).completion_label = none
    ∧ (none : Option String) ≠ some "Not Completed" := by
  exact ⟨by decide, rfl, by decide⟩

/-- Witness for C5 at a concrete record. -/
theorem c5_witness :
    (derive_dates_row
        { state := some "TX", bill_number := some "HB 7", title := some "t",
          dem_sponsors := 1, rep_sponsors := 0, session_start := some 2023,
          session_end := some 2024, last_action_date := some "2024-05-06",
          last_action := some "Passed", completed := some 1 }).completion_label
      = some "Completed"
    ∧ (derive_dates_row
        { state := some "TX", bill_number := some "HB 7", title := some "t",
          dem_sponsors := 1, rep_sponsors := 0, session_start := some 2023,
          session_end := some 2024, last_action_date := some "2024-05-06",
          last_action := some "Passed", completed := some 1 }).start_date
      = some (2023, 1, 1) := by
  refine ⟨(c5_derived_fields _).1 rfl, ?_⟩
  exact (c5_derived_fields _).2.2.2.2.1 2023 rfl

/-! ### C10 — empty/null input normalizes to the empty string -/

theorem applyPrefixTbl_nil (tbl : List (String × String))
    (h : ∀ e ∈ tbl, e.1.data ≠ []) : applyPrefixTbl tbl [] = [] := by
  induction tbl with
  | nil => rfl
  | cons e rest ih =>
    unfold applyPrefixTbl
    rw [List.foldl_cons]
    cases hd : e.1.data with
    | nil => exact absurd hd (h e (List.mem_cons_self _ _))
    | cons c cs =>
      rw [show List.isPrefixOf (c :: cs) ([] : List Char) = false from rfl]
      simp only [Bool.false_eq_true, if_false]
      exact ih (fun e' he' => h e' (List.mem_cons_of_mem _ he'))

theorem lookupPrefixTbl_entries {j : String} {tbl : List (String × String)}
    (hl : lookupPrefixTbl j = some tbl) : ∀ e ∈ tbl, e.1.data ≠ [] := by
  unfold lookupPrefixTbl at hl
  rw [Option.map_eq_some'] at hl
  obtain ⟨a, hfind, hsnd⟩ := hl
  have hmem : a ∈ STATE_PREFIX_MAP := List.mem_of_find?_eq_some hfind
  subst hsnd
  simp only [STATE_PREFIX_MAP, List.mem_cons, List.not_mem_nil, or_false] at hmem
  rcases hmem with h | h | h | h | h | h <;> subst h <;> decide

theorem normalize_chars_nil (j : String) : normalize_chars [] j = [] := by
  unfold normalize_chars
  cases hl : lookupPrefixTbl j with
  | none => rfl
  | some tbl =>
    simp only
    rw [show step1 [] = [] from rfl, applyPrefixTbl_nil tbl (lookupPrefixTbl_entries hl)]
    rfl

/-- **C10.** For every jurisdiction, `normalize_bill` and `clean_bill` on
a null (absent) or empty raw input return the empty string; both are
total functions, so they never raise. -/
theorem c10_empty_input (j : String) :
    normalize_bill none j = ""
    ∧ normalize_bill (some "") j = ""
    ∧ clean_bill none j = ""
    ∧ clean_bill (some "") j = "" := by
  have hnc : (⟨normalize_chars [] j⟩ : String) = "" := by
    rw [normalize_chars_nil j]
  have hclean : clean_bill none j = "" := by
    unfold clean_bill
    simp only [Option.getD_none]
    rw [show pytrim ("" : String).data = [] from rfl]
    cases hj : j.data with
    | nil => exact hnc
    | cons c cs => exact hnc
  exact ⟨hnc, hnc, hclean, hclean⟩

/-! ### Character-class facts and takeWhile/dropWhile head lemmas -/

theorem ws_not_up {c : Char} (h : isWs c = true) : isUp c = false := by
  simp only [isWs, Bool.or_eq_true, beq_iff_eq] at h
  simp only [isUp, Bool.and_eq_false_iff, decide_eq_false_iff_not]
  generalize c.toNat = n at h ⊢
  omega

theorem ws_not_dig {c : Char} (h : isWs c = true) : isDig c = false := by
  simp only [isWs, Bool.or_eq_true, beq_iff_eq] at h
  simp only [isDig, Bool.and_eq_false_iff, decide_eq_false_iff_not]
  generalize c.toNat = n at h ⊢
  omega

theorem up_not_dig {c : Char} (h : isUp c = true) : isDig c = false := by
  simp only [isUp, Bool.and_eq_true, decide_eq_true_eq] at h
  simp only [isDig, Bool.and_eq_false_iff, decide_eq_false_iff_not]
  generalize c.toNat = n at h ⊢
  omega

theorem up_not_ws {c : Char} (h : isUp c = true) : isWs c = false := by
  simp only [isUp, Bool.and_eq_true, decide_eq_true_eq] at h
  simp only [isWs, Bool.or_eq_false_iff, beq_eq_false_iff_ne, ne_eq]
  generalize c.toNat = n at h ⊢
  omega

theorem dig_not_up {c : Char} (h : isDig c = true) : isUp c = false := by
  simp only [isDig, Bool.and_eq_true, decide_eq_true_eq] at h
  simp only [isUp, Bool.and_eq_false_iff, decide_eq_false_iff_not]
  omega

theorem dig_not_ws {c : Char} (h : isDig c = true) : isWs c = false := by
  simp only [isDig, Bool.and_eq_true, decide_eq_true_eq] at h
  simp only [isWs, Bool.or_eq_false_iff, beq_eq_false_iff_ne, ne_eq]
  generalize c.toNat = n at h ⊢
  omega

theorem takeWhile_nil_of_head {p : Char → Bool} {l : List Char}
    (h : ∀ x, l.head? = some x → p x = false) : l.takeWhile p = [] := by
  cases l with
  | nil => rfl
  | cons c rest => exact List.takeWhile_cons_of_neg (by simp [h c rfl])

theorem dropWhile_eq_self_of_head {p : Char → Bool} {l : List Char}
    (h : ∀ x, l.head? = some x → p x = false) : l.dropWhile p = l := by
  cases l with
  | nil => rfl
  | cons c rest => exact List.dropWhile_cons_of_neg (by simp [h c rfl])

theorem head_not_of_takeWhile_nil {p : Char → Bool} {l : List Char}
    (h : l.takeWhile p = []) : ∀ x, l.head? = some x → p x = false := by
  intro x hx
  cases l with
  | nil => exact absurd hx (by simp)
  | cons c rest =>
    obtain rfl : c = x := by simpa using hx
    rcases Bool.eq_false_or_eq_true (p c) with hp | hp
    · rw [List.takeWhile_cons_of_pos hp] at h
      exact absurd h (by simp)
    · exact hp

theorem head_dropWhile (p : Char → Bool) (l : List Char) :
    ∀ x, (l.dropWhile p).head? = some x → p x = false := by
  intro x hx
  have h := List.head?_dropWhile_not p l
  rw [hx] at h
  exact h

theorem head_of_append_left {l₁ l₂ : List Char} {x : Char} (h : l₁.head? = some x) :
    (l₁ ++ l₂).head? = some x := by
  cases l₁ with
  | nil => exact absurd h (by simp)
  | cons c rest => simpa using h

/-! ### Unfolding equations for `regexSub` -/

theorem rsGo_fuel : ∀ f g (l : List Char), l.length ≤ f → l.length ≤ g →
    rsGo f l = rsGo g l := by
  intro f
  induction f with
  | zero =>
    intro g l hf _
    have : l = [] := List.length_eq_zero.mp (Nat.le_zero.mp hf)
    subst this
    cases g <;> rfl
  | succ f ih =>
    intro g l hf hg
    cases l with
    | nil => cases g <;> rfl
    | cons c rest =>
      cases g with
      | zero => exact absurd hg (by simp)
      | succ g =>
        show (if isUp c then _ else _) = (if isUp c then _ else _)
        have hrest_f : rest.length ≤ f := by simpa using hf
        have hrest_g : rest.length ≤ g := by simpa using hg
        by_cases hc : isUp c = true
        · rw [if_pos hc, if_pos hc]
          by_cases hD : (((rest.dropWhile isUp).dropWhile isWs).takeWhile isDig).isEmpty = true
          · rw [if_pos hD, if_pos hD, ih g rest hrest_f hrest_g]
          · rw [if_neg hD, if_neg hD]
            have hrlen : ((((rest.dropWhile isUp).dropWhile isWs).dropWhile isDig).dropWhile
                isUp).length ≤ rest.length :=
              le_trans (length_dropWhile_le _ _) (le_trans (length_dropWhile_le _ _)
                (le_trans (length_dropWhile_le _ _) (length_dropWhile_le _ _)))
            rw [ih g _ (le_trans hrlen hrest_f) (le_trans hrlen hrest_g)]
        · rw [if_neg hc, if_neg hc, ih g rest hrest_f hrest_g]

theorem regexSub_nil : regexSub ([] : List Char) = [] := rfl

theorem regexSub_cons (c : Char) (rest : List Char) :
    regexSub (c :: rest) =
      if isUp c then
        (if (((rest.dropWhile isUp).dropWhile isWs).takeWhile isDig).isEmpty then
          c :: regexSub rest
        else
          (c :: rest.takeWhile isUp) ++ ' '
            :: (stripZeros (((rest.dropWhile isUp).dropWhile isWs).takeWhile isDig)
            ++ (((((rest.dropWhile isUp).dropWhile isWs).dropWhile isDig).takeWhile isUp)
            ++ regexSub ((((rest.dropWhile isUp).dropWhile isWs).dropWhile isDig).dropWhile isUp))))
      else c :: regexSub rest := by
  show rsGo (rest.length + 1) (c :: rest) = _
  show (if isUp c then _ else _) = _
  unfold regexSub
  by_cases hc : isUp c = true
  · rw [if_pos hc, if_pos hc]
    by_cases hD : (((rest.dropWhile isUp).dropWhile isWs).takeWhile isDig).isEmpty = true
    · rw [if_pos hD, if_pos hD]
    · rw [if_neg hD, if_neg hD]
      have hrlen : ((((rest.dropWhile isUp).dropWhile isWs).dropWhile isDig).dropWhile
          isUp).length ≤ rest.length :=
        le_trans (length_dropWhile_le _ _) (le_trans (length_dropWhile_le _ _)
          (le_trans (length_dropWhile_le _ _) (length_dropWhile_le _ _)))
      rw [rsGo_fuel rest.length _ _ hrlen (le_refl _)]
  · rw [if_neg hc, if_neg hc]

theorem regexSub_cons_copy {c : Char} (rest : List Char) (h : isUp c = false) :
    regexSub (c :: rest) = c :: regexSub rest := by
  rw [regexSub_cons, if_neg (by simp [h])]

theorem regexSub_cons_noMatch {c : Char} {rest : List Char} (h : isUp c = true)
    (hD : ((rest.dropWhile isUp).dropWhile isWs).takeWhile isDig = []) :
    regexSub (c :: rest) = c :: regexSub rest := by
  rw [regexSub_cons, if_pos h, if_pos (by simp [hD])]

theorem regexSub_cons_match {c : Char} {rest : List Char} (h : isUp c = true)
    (hD : ((rest.dropWhile isUp).dropWhile isWs).takeWhile isDig ≠ []) :
    regexSub (c :: rest) =
      (c :: rest.takeWhile isUp) ++ ' '
        :: (stripZeros (((rest.dropWhile isUp).dropWhile isWs).takeWhile isDig)
        ++ (((((rest.dropWhile isUp).dropWhile isWs).dropWhile isDig).takeWhile isUp)
        ++ regexSub ((((rest.dropWhile isUp).dropWhile isWs).dropWhile isDig).dropWhile isUp))) := by
  rw [regexSub_cons, if_pos h, if_neg (by simpa [List.isEmpty_iff] using hD)]

theorem regexSub_head : ∀ l : List Char, (regexSub l).head? = l.head? := by
  intro l
  cases l with
  | nil => rfl
  | cons c rest =>
    by_cases hc : isUp c = true
    · by_cases hD : ((rest.dropWhile isUp).dropWhile isWs).takeWhile isDig = []
      · rw [regexSub_cons_noMatch hc hD]
        rfl
      · rw [regexSub_cons_match hc hD]
        rfl
    · rw [regexSub_cons_copy rest (by simpa using hc)]
      rfl

/-! ### Structure lemmas for `regexSub` -/

theorem stripZeros_ne_nil (D : List Char) : stripZeros D ≠ [] := by
  unfold stripZeros
  split
  · simp
  · rename_i h
    intro hnil
    rw [hnil] at h
    exact h rfl

theorem stripZeros_digits {D : List Char} (h : ∀ c ∈ D, isDig c = true) :
    ∀ c ∈ stripZeros D, isDig c = true := by
  intro c hc
  unfold stripZeros at hc
  split at hc
  · rw [List.mem_singleton.mp hc]
    decide
  · exact h c ((List.dropWhile_sublist _).subset hc)

theorem stripZeros_idem (D : List Char) : stripZeros (stripZeros D) = stripZeros D := by
  unfold stripZeros
  by_cases h : (D.dropWhile (fun c => c == '0')).isEmpty = true
  · rw [if_pos h]
    rfl
  · rw [if_neg h]
    cases hd : D.dropWhile (fun c => c == '0') with
    | nil => rw [hd] at h; exact absurd rfl h
    | cons c rest =>
      have hc : (c == '0') = false := by
        have := head_dropWhile (fun c => c == '0') D
        rw [hd] at this
        exact this c rfl
      rw [List.dropWhile_cons_of_neg (by simp [hc])]
      rw [if_neg (by simp)]

/-- Characters that are not uppercase letters are always copied verbatim. -/
theorem regexSub_append_copy {A : List Char} (t : List Char)
    (h : ∀ a ∈ A, isUp a = false) : regexSub (A ++ t) = A ++ regexSub t := by
  induction A with
  | nil => rfl
  | cons a A ih =>
    rw [List.cons_append, regexSub_cons_copy _ (h a (List.mem_cons_self _ _)),
      ih (fun a' ha' => h a' (List.mem_cons_of_mem _ ha'))]
    rfl

/-- An uppercase run with no digit ahead (after optional whitespace) is
copied verbatim: the scan fails at every position of the run. -/
theorem regexSub_upper_copy {U : List Char} (x : List Char)
    (hU : ∀ a ∈ U, isUp a = true)
    (hx : x.takeWhile isUp = [])
    (hD : (x.dropWhile isWs).takeWhile isDig = []) :
    regexSub (U ++ x) = U ++ regexSub x := by
  induction U with
  | nil => rfl
  | cons a U ih =>
    have ha : isUp a = true := hU a (List.mem_cons_self _ _)
    have hU' : ∀ a ∈ U, isUp a = true := fun a' ha' => hU a' (List.mem_cons_of_mem _ ha')
    rw [List.cons_append, regexSub_cons_noMatch ha ?_, ih hU']
    · rfl
    · rw [List.dropWhile_append_of_pos hU',
        dropWhile_eq_self_of_head (head_not_of_takeWhile_nil hx), hD]

/-- If the scan can find no digits (after uppercase and whitespace) at the
head of `rest`, the same is true of `regexSub rest`. -/
theorem noDigit_regexSub (rest : List Char)
    (hD : ((rest.dropWhile isUp).dropWhile isWs).takeWhile isDig = []) :
    (((regexSub rest).dropWhile isUp).dropWhile isWs).takeWhile isDig = [] := by
  -- decompose `rest` into uppercase run, whitespace run and tail
  have hrest : rest.takeWhile isUp ++ rest.dropWhile isUp = rest :=
    List.takeWhile_append_dropWhile isUp rest
  set U := rest.takeWhile isUp with hUdef
  set x := rest.dropWhile isUp with hxdef
  have hU : ∀ a ∈ U, isUp a = true := fun a ha => List.mem_takeWhile_imp ha
  have hxhead : ∀ c, x.head? = some c → isUp c = false := head_dropWhile isUp rest
  have hxtw : x.takeWhile isUp = [] := takeWhile_nil_of_head hxhead
  have hxsplit : x.takeWhile isWs ++ x.dropWhile isWs = x :=
    List.takeWhile_append_dropWhile isWs x
  set W := x.takeWhile isWs with hWdef
  set t := x.dropWhile isWs with htdef
  have hW : ∀ a ∈ W, isWs a = true := fun a ha => List.mem_takeWhile_imp ha
  have hthead_ws : ∀ c, t.head? = some c → isWs c = false := head_dropWhile isWs x
  have hthead_dig : ∀ c, t.head? = some c → isDig c = false :=
    head_not_of_takeWhile_nil hD
  -- regexSub copies U and W
  have h1 : regexSub rest = U ++ (W ++ regexSub t) := by
    conv_lhs => rw [← hrest]
    rw [regexSub_upper_copy x hU hxtw hD]
    congr 1
    conv_lhs => rw [← hxsplit]
    exact regexSub_append_copy t (fun a ha => ws_not_up (hW a ha))
  rw [h1, List.dropWhile_append_of_pos hU]
  have hWt_up : (W ++ regexSub t).dropWhile isUp = W ++ regexSub t := by
    apply dropWhile_eq_self_of_head
    intro c hc
    cases hWcase : W with
    | nil =>
      rw [hWcase, List.nil_append, regexSub_head t] at hc
      have hxw : ∀ c', x.head? = some c' → isWs c' = false :=
        head_not_of_takeWhile_nil (by rw [← hWdef, hWcase])
      have ht : t = x := by rw [htdef]; exact dropWhile_eq_self_of_head hxw
      rw [ht] at hc
      exact hxhead c hc
    | cons w W' =>
      rw [hWcase] at hc
      simp only [List.cons_append, List.head?_cons, Option.some.injEq] at hc
      rw [← hc]
      exact ws_not_up (hW w (by rw [hWcase]; exact List.mem_cons_self _ _))
  rw [hWt_up, List.dropWhile_append_of_pos hW]
  have ht_ws : (regexSub t).dropWhile isWs = regexSub t := by
    apply dropWhile_eq_self_of_head
    intro c hc
    rw [regexSub_head t] at hc
    exact hthead_ws c hc
  rw [ht_ws]
  apply takeWhile_nil_of_head
  intro c hc
  rw [regexSub_head t] at hc
  exact hthead_dig c hc

/-- The replacement a match produces — letter run, one space, zero-stripped
digits, letter suffix — re-matches to itself on a second scan. -/
theorem regexSub_block (L D' S r : List Char)
    (hL : L ≠ []) (hLup : ∀ a ∈ L, isUp a = true)
    (hD'ne : D' ≠ []) (hD'dig : ∀ a ∈ D', isDig a = true) (hDz : stripZeros D' = D')
    (hSup : ∀ a ∈ S, isUp a = true)
    (hr_up : ∀ x, r.head? = some x → isUp x = false)
    (hr_dig : S = [] → ∀ x, r.head? = some x → isDig x = false) :
    regexSub (L ++ ' ' :: (D' ++ (S ++ regexSub r)))
      = L ++ ' ' :: (D' ++ (S ++ regexSub (regexSub r))) := by
  have hrr_up : ∀ x, (regexSub r).head? = some x → isUp x = false := by
    intro x hx
    rw [regexSub_head r] at hx
    exact hr_up x hx
  have hrr_dig : S = [] → ∀ x, (regexSub r).head? = some x → isDig x = false := by
    intro hS x hx
    rw [regexSub_head r] at hx
    exact hr_dig hS x hx
  have hheadSrr : ∀ x, (S ++ regexSub r).head? = some x → isDig x = false := by
    intro x hx
    cases hScase : S with
    | nil =>
      rw [hScase, List.nil_append] at hx
      exact hrr_dig hScase x hx
    | cons s S1 =>
      rw [hScase] at hx
      simp only [List.cons_append, List.head?_cons, Option.some.injEq] at hx
      exact up_not_dig (hx ▸ hSup s (by rw [hScase]; exact List.mem_cons_self _ _))
  cases hLcase : L with
  | nil => exact absurd hLcase hL
  | cons c L1 =>
    have hc : isUp c = true := hLup c (by rw [hLcase]; exact List.mem_cons_self _ _)
    have hL1up : ∀ a ∈ L1, isUp a = true :=
      fun a ha => hLup a (by rw [hLcase]; exact List.mem_cons_of_mem _ ha)
    -- the four scan components at the head of the block
    have hA : (L1 ++ ' ' :: (D' ++ (S ++ regexSub r))).dropWhile isUp
        = ' ' :: (D' ++ (S ++ regexSub r)) := by
      rw [List.dropWhile_append_of_pos hL1up]
      exact List.dropWhile_cons_of_neg (by decide)
    have hr2 : ((' ' : Char) :: (D' ++ (S ++ regexSub r))).dropWhile isWs
        = D' ++ (S ++ regexSub r) := by
      rw [List.dropWhile_cons_of_pos (by decide)]
      apply dropWhile_eq_self_of_head
      intro x hx
      cases hDcase : D' with
      | nil => exact absurd hDcase hD'ne
      | cons d D1 =>
        rw [hDcase] at hx
        simp only [List.cons_append, List.head?_cons, Option.some.injEq] at hx
        exact dig_not_ws (hx ▸ hD'dig d (by rw [hDcase]; exact List.mem_cons_self _ _))
    have hD2 : (D' ++ (S ++ regexSub r)).takeWhile isDig = D' := by
      rw [List.takeWhile_append_of_pos hD'dig, takeWhile_nil_of_head hheadSrr,
        List.append_nil]
    have hr3 : (D' ++ (S ++ regexSub r)).dropWhile isDig = S ++ regexSub r := by
      rw [List.dropWhile_append_of_pos hD'dig]
      exact dropWhile_eq_self_of_head hheadSrr
    have hS2 : (S ++ regexSub r).takeWhile isUp = S := by
      rw [List.takeWhile_append_of_pos hSup, takeWhile_nil_of_head hrr_up,
        List.append_nil]
    have hr4 : (S ++ regexSub r).dropWhile isUp = regexSub r := by
      rw [List.dropWhile_append_of_pos hSup]
      exact dropWhile_eq_self_of_head hrr_up
    have htwL : (L1 ++ ' ' :: (D' ++ (S ++ regexSub r))).takeWhile isUp = L1 := by
      rw [List.takeWhile_append_of_pos hL1up,
        List.takeWhile_cons_of_neg (by decide), List.append_nil]
    rw [List.cons_append]
    rw [regexSub_cons_match hc (by rw [hA, hr2, hD2]; exact hD'ne)]
    rw [hA, hr2, hD2, hr3, hS2, hr4, htwL, hDz]

/-- `regexSub` is idempotent. -/
theorem regexSub_idem (l : List Char) : regexSub (regexSub l) = regexSub l := by
  suffices H : ∀ n (l : List Char), l.length ≤ n → regexSub (regexSub l) = regexSub l from
    H l.length l (le_refl _)
  intro n
  induction n with
  | zero =>
    intro l hl
    have : l = [] := List.length_eq_zero.mp (Nat.le_zero.mp hl)
    subst this
    rfl
  | succ n ih =>
    intro l hl
    cases l with
    | nil => rfl
    | cons c rest =>
      have hrest : rest.length ≤ n := by simpa using hl
      rcases Bool.eq_false_or_eq_true (isUp c) with hc | hc
      · -- uppercase head
        by_cases hD : ((rest.dropWhile isUp).dropWhile isWs).takeWhile isDig = []
        · -- no match at this position, also not after the first pass
          rw [regexSub_cons_noMatch hc hD,
            regexSub_cons_noMatch hc (noDigit_regexSub rest hD), ih rest hrest]
        · -- a match: the replacement block re-matches to itself
          rw [regexSub_cons_match hc hD]
          have hr3head_dig := head_dropWhile isDig ((rest.dropWhile isUp).dropWhile isWs)
          have hr4head_up :=
            head_dropWhile isUp (((rest.dropWhile isUp).dropWhile isWs).dropWhile isDig)
          have hblock := regexSub_block
            (c :: rest.takeWhile isUp)
            (stripZeros (((rest.dropWhile isUp).dropWhile isWs).takeWhile isDig))
            ((((rest.dropWhile isUp).dropWhile isWs).dropWhile isDig).takeWhile isUp)
            ((((rest.dropWhile isUp).dropWhile isWs).dropWhile isDig).dropWhile isUp)
            (by simp)
            (by
              intro a ha
              rcases List.mem_cons.mp ha with h | h
              · exact h ▸ hc
              · exact List.mem_takeWhile_imp h)
            (stripZeros_ne_nil _)
            (stripZeros_digits (fun c hc => List.mem_takeWhile_imp hc))
            (stripZeros_idem _)
            (fun a ha => List.mem_takeWhile_imp ha)
            hr4head_up
            (by
              intro hS x hx
              have hr4r3 : (((rest.dropWhile isUp).dropWhile isWs).dropWhile
                  isDig).dropWhile isUp
                  = ((rest.dropWhile isUp).dropWhile isWs).dropWhile isDig :=
                dropWhile_eq_self_of_head (head_not_of_takeWhile_nil hS)
              rw [hr4r3] at hx
              exact hr3head_dig x hx)
          rw [hblock]
          have hrlen : ((((rest.dropWhile isUp).dropWhile isWs).dropWhile
              isDig).dropWhile isUp).length ≤ n :=
            le_trans (le_trans (length_dropWhile_le _ _) (le_trans (length_dropWhile_le _ _)
              (le_trans (length_dropWhile_le _ _) (length_dropWhile_le _ _)))) hrest
          rw [ih _ hrlen]
      · -- non-uppercase head: copied in both passes
        rw [regexSub_cons_copy rest hc, regexSub_cons_copy _ hc, ih rest hrest]

/-! ### Run/append helpers and the trailing-whitespace lemma -/

theorem takeWhile_nil_of_all {p : Char → Bool} {l : List Char}
    (h : ∀ a ∈ l, p a = false) : l.takeWhile p = [] := by
  cases l with
  | nil => rfl
  | cons a l => exact List.takeWhile_cons_of_neg (by simp [h a (List.mem_cons_self _ _)])

theorem dropWhile_eq_self_of_all {p : Char → Bool} {l : List Char}
    (h : ∀ a ∈ l, p a = false) : l.dropWhile p = l := by
  cases l with
  | nil => rfl
  | cons a l => exact List.dropWhile_cons_of_neg (by simp [h a (List.mem_cons_self _ _)])

theorem takeWhile_eq_self_of_all {p : Char → Bool} {l : List Char}
    (h : ∀ a ∈ l, p a = true) : l.takeWhile p = l := by
  induction l with
  | nil => rfl
  | cons a l ih =>
    rw [List.takeWhile_cons_of_pos (h a (List.mem_cons_self _ _)),
      ih (fun a' ha' => h a' (List.mem_cons_of_mem _ ha'))]

theorem tw_append_stop {p : Char → Bool} {xs : List Char} (ys : List Char)
    (h : xs.dropWhile p ≠ []) : (xs ++ ys).takeWhile p = xs.takeWhile p := by
  induction xs with
  | nil => exact absurd rfl h
  | cons a xs ih =>
    rcases Bool.eq_false_or_eq_true (p a) with hp | hp
    · rw [List.cons_append, List.takeWhile_cons_of_pos hp, List.takeWhile_cons_of_pos hp]
      rw [List.dropWhile_cons_of_pos hp] at h
      rw [ih h]
    · rw [List.cons_append, List.takeWhile_cons_of_neg (by simp [hp]),
        List.takeWhile_cons_of_neg (by simp [hp])]

theorem dw_append_stop {p : Char → Bool} {xs : List Char} (ys : List Char)
    (h : xs.dropWhile p ≠ []) : (xs ++ ys).dropWhile p = xs.dropWhile p ++ ys := by
  induction xs with
  | nil => exact absurd rfl h
  | cons a xs ih =>
    rcases Bool.eq_false_or_eq_true (p a) with hp | hp
    · rw [List.cons_append, List.dropWhile_cons_of_pos hp, List.dropWhile_cons_of_pos hp]
      rw [List.dropWhile_cons_of_pos hp] at h
      exact ih h
    · rw [List.cons_append, List.dropWhile_cons_of_neg (by simp [hp]),
        List.dropWhile_cons_of_neg (by simp [hp]), List.cons_append]

/-- Trailing whitespace never takes part in a match (a match needs a digit
after its optional whitespace), so it passes through `regexSub`. -/
theorem regexSub_append_ws {T : List Char} (hT : ∀ a ∈ T, isWs a = true) :
    ∀ l : List Char, regexSub (l ++ T) = regexSub l ++ T := by
  have hT_nup : ∀ a ∈ T, isUp a = false := fun a ha => ws_not_up (hT a ha)
  have hT_ndig : ∀ a ∈ T, isDig a = false := fun a ha => ws_not_dig (hT a ha)
  have hTsub : regexSub T = T := by
    have h := regexSub_append_copy (A := T) [] hT_nup
    simpa [regexSub_nil] using h
  suffices H : ∀ n (l : List Char), l.length ≤ n → regexSub (l ++ T) = regexSub l ++ T from
    fun l => H l.length l (le_refl _)
  intro n
  induction n with
  | zero =>
    intro l hl
    obtain rfl : l = [] := List.length_eq_zero.mp (Nat.le_zero.mp hl)
    simpa using hTsub
  | succ n ih =>
    intro l hl
    cases l with
    | nil => simpa using hTsub
    | cons c l' =>
      have hl' : l'.length ≤ n := by simpa using hl
      rcases Bool.eq_false_or_eq_true (isUp c) with hc | hc
      · -- uppercase head
        by_cases hA : l'.dropWhile isUp = []
        · -- the upper run reaches the end of l'; only whitespace follows
          have hA_b : (l' ++ T).dropWhile isUp = T := by
            rw [List.dropWhile_append_of_pos (List.dropWhile_eq_nil_iff.mp hA),
              dropWhile_eq_self_of_all hT_nup]
          have hD_b : (((l' ++ T).dropWhile isUp).dropWhile isWs).takeWhile isDig = [] := by
            rw [hA_b, List.dropWhile_eq_nil_iff.mpr hT]
            rfl
          have hD_s : ((l'.dropWhile isUp).dropWhile isWs).takeWhile isDig = [] := by
            rw [hA]
            rfl
          rw [List.cons_append, regexSub_cons_noMatch hc hD_b,
            regexSub_cons_noMatch hc hD_s, ih l' hl', List.cons_append]
        · have hA_b : (l' ++ T).dropWhile isUp = l'.dropWhile isUp ++ T :=
            dw_append_stop T hA
          have htw_b : (l' ++ T).takeWhile isUp = l'.takeWhile isUp :=
            tw_append_stop T hA
          by_cases hr2 : (l'.dropWhile isUp).dropWhile isWs = []
          · -- only whitespace follows the upper run
            have hr2_b : ((l' ++ T).dropWhile isUp).dropWhile isWs = [] := by
              rw [hA_b, List.dropWhile_append_of_pos (List.dropWhile_eq_nil_iff.mp hr2),
                List.dropWhile_eq_nil_iff.mpr hT]
            rw [List.cons_append, regexSub_cons_noMatch hc (by rw [hr2_b]; rfl),
              regexSub_cons_noMatch hc (by rw [hr2]; rfl), ih l' hl', List.cons_append]
          · have hr2_b : ((l' ++ T).dropWhile isUp).dropWhile isWs
                = (l'.dropWhile isUp).dropWhile isWs ++ T := by
              rw [hA_b]
              exact dw_append_stop T hr2
            by_cases hr3 : ((l'.dropWhile isUp).dropWhile isWs).dropWhile isDig = []
            · -- the candidate digit run reaches the end of l'
              have hr2dig : ∀ a ∈ (l'.dropWhile isUp).dropWhile isWs, isDig a = true :=
                List.dropWhile_eq_nil_iff.mp hr3
              have hD_s : ((l'.dropWhile isUp).dropWhile isWs).takeWhile isDig
                  = (l'.dropWhile isUp).dropWhile isWs := takeWhile_eq_self_of_all hr2dig
              have hD_b : (((l' ++ T).dropWhile isUp).dropWhile isWs).takeWhile isDig
                  = (l'.dropWhile isUp).dropWhile isWs := by
                rw [hr2_b, List.takeWhile_append_of_pos hr2dig,
                  takeWhile_nil_of_all hT_ndig, List.append_nil]
              have hr3_b : (((l' ++ T).dropWhile isUp).dropWhile isWs).dropWhile isDig
                  = T := by
                rw [hr2_b, List.dropWhile_append_of_pos hr2dig,
                  dropWhile_eq_self_of_all hT_ndig]
              rw [List.cons_append,
                regexSub_cons_match hc (by rw [hD_b]; exact hr2),
                regexSub_cons_match hc (by rw [hD_s]; exact hr2)]
              rw [htw_b, hD_b, hD_s, hr3_b, hr3]
              rw [takeWhile_nil_of_all hT_nup, dropWhile_eq_self_of_all hT_nup, hTsub]
              simp [regexSub_nil]
            · -- the digit run (if any) stops inside l'
              have hD_b : (((l' ++ T).dropWhile isUp).dropWhile isWs).takeWhile isDig
                  = ((l'.dropWhile isUp).dropWhile isWs).takeWhile isDig := by
                rw [hr2_b]
                exact tw_append_stop T hr3
              by_cases hD : ((l'.dropWhile isUp).dropWhile isWs).takeWhile isDig = []
              · rw [List.cons_append, regexSub_cons_noMatch hc (by rw [hD_b]; exact hD),
                  regexSub_cons_noMatch hc hD, ih l' hl', List.cons_append]
              · have hr3_b : (((l' ++ T).dropWhile isUp).dropWhile isWs).dropWhile isDig
                    = ((l'.dropWhile isUp).dropWhile isWs).dropWhile isDig ++ T := by
                  rw [hr2_b]
                  exact dw_append_stop T hr3
                by_cases hr4 : (((l'.dropWhile isUp).dropWhile isWs).dropWhile
                    isDig).dropWhile isUp = []
                · -- the letter suffix reaches the end of l'
                  have hr3up : ∀ a ∈ ((l'.dropWhile isUp).dropWhile isWs).dropWhile isDig,
                      isUp a = true := List.dropWhile_eq_nil_iff.mp hr4
                  have hS_s : (((l'.dropWhile isUp).dropWhile isWs).dropWhile
                      isDig).takeWhile isUp
                      = ((l'.dropWhile isUp).dropWhile isWs).dropWhile isDig :=
                    takeWhile_eq_self_of_all hr3up
                  have hS_b : ((((l' ++ T).dropWhile isUp).dropWhile isWs).dropWhile
                      isDig).takeWhile isUp
                      = ((l'.dropWhile isUp).dropWhile isWs).dropWhile isDig := by
                    rw [hr3_b, List.takeWhile_append_of_pos hr3up,
                      takeWhile_nil_of_all hT_nup, List.append_nil]
                  have hr4_b : ((((l' ++ T).dropWhile isUp).dropWhile isWs).dropWhile
                      isDig).dropWhile isUp = T := by
                    rw [hr3_b, List.dropWhile_append_of_pos hr3up,
                      dropWhile_eq_self_of_all hT_nup]
                  rw [List.cons_append,
                    regexSub_cons_match hc (by rw [hD_b]; exact hD),
                    regexSub_cons_match hc hD]
                  rw [htw_b, hD_b, hS_b, hS_s, hr4_b, hr4, hTsub]
                  simp [regexSub_nil]
                · -- the whole match is inside l'
                  have hS_b : ((((l' ++ T).dropWhile isUp).dropWhile isWs).dropWhile
                      isDig).takeWhile isUp
                      = (((l'.dropWhile isUp).dropWhile isWs).dropWhile
                        isDig).takeWhile isUp := by
                    rw [hr3_b]
                    exact tw_append_stop T hr4
                  have hr4_b : ((((l' ++ T).dropWhile isUp).dropWhile isWs).dropWhile
                      isDig).dropWhile isUp
                      = (((l'.dropWhile isUp).dropWhile isWs).dropWhile
                        isDig).dropWhile isUp ++ T := by
                    rw [hr3_b]
                    exact dw_append_stop T hr4
                  have hr4len : ((((l'.dropWhile isUp).dropWhile isWs).dropWhile
                      isDig).dropWhile isUp).length ≤ n :=
                    le_trans (le_trans (length_dropWhile_le _ _)
                      (le_trans (length_dropWhile_le _ _)
                        (le_trans (length_dropWhile_le _ _) (length_dropWhile_le _ _)))) hl'
                  rw [List.cons_append,
                    regexSub_cons_match hc (by rw [hD_b]; exact hD),
                    regexSub_cons_match hc hD]
                  rw [htw_b, hD_b, hS_b, hr4_b, ih _ hr4len]
                  simp
      · -- non-uppercase head: copied on both sides
        rw [List.cons_append, regexSub_cons_copy _ hc, regexSub_cons_copy _ hc,
          ih l' hl', List.cons_append]

/-! ### `pytrim` structure and the fixed point of `regexSub` under trimming -/

/-- `trimLeft w` and the trailing whitespace run decompose `w`. -/
theorem pytrim_decomp (w : List Char) :
    w = w.takeWhile isWs ++ (pytrim w ++ ((w.dropWhile isWs).reverse.takeWhile isWs).reverse)
    ∧ (∀ a ∈ w.takeWhile isWs, isWs a = true)
    ∧ (∀ a ∈ ((w.dropWhile isWs).reverse.takeWhile isWs).reverse, isWs a = true) := by
  refine ⟨?_, fun a ha => List.mem_takeWhile_imp ha, ?_⟩
  · conv_lhs => rw [← List.takeWhile_append_dropWhile isWs w]
    congr 1
    show w.dropWhile isWs = pytrim w ++ _
    conv_lhs => rw [← List.reverse_reverse (w.dropWhile isWs)]
    conv_lhs =>
      rw [← List.takeWhile_append_dropWhile isWs (w.dropWhile isWs).reverse]
    rw [List.reverse_append]
    rfl
  · intro a ha
    rw [List.mem_reverse] at ha
    exact List.mem_takeWhile_imp ha

theorem pytrim_head {w : List Char} :
    ∀ x, (pytrim w).head? = some x → isWs x = false := by
  intro x hx
  have hx' : (w.dropWhile isWs).head? = some x := by
    obtain ⟨hdec, _, _⟩ := pytrim_decomp w
    have : w.dropWhile isWs
        = pytrim w ++ ((w.dropWhile isWs).reverse.takeWhile isWs).reverse := by
      have h2 := List.takeWhile_append_dropWhile isWs w
      conv_lhs at hdec => rw [← h2]
      exact List.append_cancel_left hdec
    rw [this]
    exact head_of_append_left hx
  exact head_dropWhile isWs w x hx'

theorem pytrim_rev_head {w : List Char} :
    ∀ x, (pytrim w).reverse.head? = some x → isWs x = false := by
  intro x hx
  show isWs x = false
  unfold pytrim trimRight at hx
  rw [List.reverse_reverse] at hx
  exact head_dropWhile isWs (trimLeft w).reverse x hx

/-- A list without leading or trailing whitespace is unchanged by `pytrim`. -/
theorem pytrim_eq_self {y : List Char}
    (h1 : ∀ x, y.head? = some x → isWs x = false)
    (h2 : ∀ x, y.reverse.head? = some x → isWs x = false) :
    pytrim y = y := by
  unfold pytrim trimLeft trimRight
  rw [dropWhile_eq_self_of_head h1, dropWhile_eq_self_of_head h2, List.reverse_reverse]

theorem pytrim_idem (w : List Char) : pytrim (pytrim w) = pytrim w :=
  pytrim_eq_self pytrim_head pytrim_rev_head

/-- If `w` is a fixed point of `regexSub`, so is its trimmed form. -/
theorem regexSub_pytrim_fix {w : List Char} (hw : regexSub w = w) :
    regexSub (pytrim w) = pytrim w := by
  obtain ⟨hdec, hWl, hWt⟩ := pytrim_decomp w
  have h1 : regexSub w
      = w.takeWhile isWs
        ++ (regexSub (pytrim w) ++ ((w.dropWhile isWs).reverse.takeWhile isWs).reverse) := by
    conv_lhs => rw [hdec]
    rw [regexSub_append_copy _ (fun a ha => ws_not_up (hWl a ha)),
      regexSub_append_ws hWt (pytrim w)]
  rw [hw] at h1
  conv_lhs at h1 => rw [hdec]
  have h2 := List.append_cancel_left h1
  exact (List.append_cancel_right h2).symm

/-! ### `wsOk`: whitespace already collapsed (single isolated spaces) -/

/-- Every whitespace character is a single `' '` not followed by more
whitespace — exactly the strings `collapseWs` leaves unchanged. -/
def wsOk : List Char → Bool
  | [] => true
  | c :: rest =>
    (if isWs c then
      (c == ' ') && (match rest.head? with | some d => !isWs d | none => true)
    else true)
    && wsOk rest

theorem wsOk_tail {c : Char} {rest : List Char} (h : wsOk (c :: rest) = true) :
    wsOk rest = true := by
  unfold wsOk at h
  rw [Bool.and_eq_true] at h
  exact h.2

theorem wsOk_head_ws {c : Char} {rest : List Char} (h : wsOk (c :: rest) = true)
    (hc : isWs c = true) :
    c = ' ' ∧ ∀ d, rest.head? = some d → isWs d = false := by
  unfold wsOk at h
  rw [if_pos hc, Bool.and_eq_true, Bool.and_eq_true] at h
  obtain ⟨⟨h2, h3⟩, _⟩ := h
  refine ⟨beq_iff_eq.mp h2, ?_⟩
  intro d hd
  rw [hd] at h3
  simpa using h3

theorem wsOk_cons_intro {c : Char} {rest : List Char}
    (h1 : isWs c = true → c = ' ' ∧ ∀ d, rest.head? = some d → isWs d = false)
    (h2 : wsOk rest = true) : wsOk (c :: rest) = true := by
  unfold wsOk
  rw [Bool.and_eq_true]
  refine ⟨?_, h2⟩
  rcases Bool.eq_false_or_eq_true (isWs c) with hc | hc
  · rw [if_pos hc, Bool.and_eq_true]
    obtain ⟨he, hh⟩ := h1 hc
    refine ⟨beq_iff_eq.mpr he, ?_⟩
    cases hr : rest.head? with
    | none => rfl
    | some d => simpa using hh d hr
  · rw [if_neg (by simp [hc])]

theorem wsOk_append_nonws {A B : List Char} (hA : ∀ a ∈ A, isWs a = false)
    (hB : wsOk B = true) : wsOk (A ++ B) = true := by
  induction A with
  | nil => simpa using hB
  | cons a A ih =>
    rw [List.cons_append]
    refine wsOk_cons_intro ?_ (ih (fun a' ha' => hA a' (List.mem_cons_of_mem _ ha')))
    intro hc
    exact absurd hc (by simp [hA a (List.mem_cons_self _ _)])

theorem wsOk_dropWhile {p : Char → Bool} {l : List Char} (h : wsOk l = true) :
    wsOk (l.dropWhile p) = true := by
  induction l with
  | nil => exact h
  | cons c rest ih =>
    rw [List.dropWhile_cons]
    split
    · exact ih (wsOk_tail h)
    · exact h

theorem wsOk_of_append_left {A B : List Char} (h : wsOk (A ++ B) = true) :
    wsOk A = true := by
  induction A with
  | nil => rfl
  | cons a A ih =>
    rw [List.cons_append] at h
    refine wsOk_cons_intro ?_ (ih (wsOk_tail h))
    intro hc
    obtain ⟨he, hh⟩ := wsOk_head_ws h hc
    refine ⟨he, ?_⟩
    intro d hd
    exact hh d (by rw [← hd]; cases A with
      | nil => exact absurd hd (by simp)
      | cons a' A' => rfl)

theorem collapseGo_true_head {l : List Char} :
    ∀ d, (collapseGo true l).head? = some d → isWs d = false := by
  induction l with
  | nil => intro d hd; exact absurd hd (by simp [collapseGo])
  | cons c rest ih =>
    intro d hd
    unfold collapseGo at hd
    split at hd
    · rw [if_pos rfl] at hd
      exact ih d hd
    · rename_i hc
      simp only [List.head?_cons, Option.some.injEq] at hd
      rw [← hd]
      simpa using hc

theorem wsOk_collapseGo : ∀ (l : List Char) (b : Bool), wsOk (collapseGo b l) = true := by
  intro l
  induction l with
  | nil => intro b; rfl
  | cons c rest ih =>
    intro b
    unfold collapseGo
    rcases Bool.eq_false_or_eq_true (isWs c) with hc | hc
    · rw [if_pos hc]
      cases b with
      | true => rw [if_pos rfl]; exact ih true
      | false =>
        rw [if_neg (by simp)]
        refine wsOk_cons_intro ?_ (ih true)
        intro _
        exact ⟨rfl, collapseGo_true_head⟩
    · rw [if_neg (by simp [hc])]
      refine wsOk_cons_intro ?_ (ih false)
      intro hcc
      exact absurd hcc (by simp [hc])

theorem wsOk_collapseWs (l : List Char) : wsOk (collapseWs l) = true :=
  wsOk_collapseGo l false

theorem collapseGo_eq_self : ∀ (l : List Char), wsOk l = true →
    (collapseGo false l = l
      ∧ ((∀ d, l.head? = some d → isWs d = false) → collapseGo true l = l)) := by
  intro l
  induction l with
  | nil => intro _; exact ⟨rfl, fun _ => rfl⟩
  | cons c rest ih =>
    intro h
    obtain ⟨ihf, iht⟩ := ih (wsOk_tail h)
    constructor
    · unfold collapseGo
      rcases Bool.eq_false_or_eq_true (isWs c) with hc | hc
      · rw [if_pos hc, if_neg (by simp)]
        obtain ⟨he, hh⟩ := wsOk_head_ws h hc
        rw [iht hh, he]
      · rw [if_neg (by simp [hc]), ihf]
    · intro hhead
      unfold collapseGo
      have hc : isWs c = false := hhead c rfl
      rw [if_neg (by simp [hc]), ihf]

theorem collapseWs_eq_self {l : List Char} (h : wsOk l = true) : collapseWs l = l :=
  (collapseGo_eq_self l h).1

theorem wsOk_regexSub {l : List Char} (h : wsOk l = true) : wsOk (regexSub l) = true := by
  suffices H : ∀ n (l : List Char), l.length ≤ n → wsOk l = true → wsOk (regexSub l) = true from
    H l.length l (le_refl _) h
  clear h
  intro n
  induction n with
  | zero =>
    intro l hl _
    obtain rfl : l = [] := List.length_eq_zero.mp (Nat.le_zero.mp hl)
    exact rfl
  | succ n ih =>
    intro l hl h
    cases l with
    | nil => exact rfl
    | cons c rest =>
      have hrest : rest.length ≤ n := by simpa using hl
      have hcopy : wsOk (c :: regexSub rest) = true := by
        refine wsOk_cons_intro ?_ (ih rest hrest (wsOk_tail h))
        intro hc
        obtain ⟨he, hh⟩ := wsOk_head_ws h hc
        refine ⟨he, ?_⟩
        intro d hd
        rw [regexSub_head rest] at hd
        exact hh d hd
      rcases Bool.eq_false_or_eq_true (isUp c) with hc | hc
      · by_cases hD : ((rest.dropWhile isUp).dropWhile isWs).takeWhile isDig = []
        · rw [regexSub_cons_noMatch hc hD]
          exact hcopy
        · rw [regexSub_cons_match hc hD]
          have hr_wsOk : wsOk ((((rest.dropWhile isUp).dropWhile isWs).dropWhile
              isDig).dropWhile isUp) = true :=
            wsOk_dropWhile (wsOk_dropWhile (wsOk_dropWhile (wsOk_dropWhile (wsOk_tail h))))
          have hrlen : ((((rest.dropWhile isUp).dropWhile isWs).dropWhile
              isDig).dropWhile isUp).length ≤ n :=
            le_trans (le_trans (length_dropWhile_le _ _) (le_trans (length_dropWhile_le _ _)
              (le_trans (length_dropWhile_le _ _) (length_dropWhile_le _ _)))) hrest
          have hD'' : ∀ a ∈ stripZeros (((rest.dropWhile isUp).dropWhile
              isWs).takeWhile isDig), isDig a = true :=
            stripZeros_digits (fun a ha => List.mem_takeWhile_imp ha)
          refine wsOk_append_nonws ?_ ?_
          · intro a ha
            rcases List.mem_cons.mp ha with h' | h'
            · exact h' ▸ up_not_ws hc
            · exact up_not_ws (List.mem_takeWhile_imp h')
          · refine wsOk_cons_intro ?_ ?_
            · intro _
              refine ⟨rfl, ?_⟩
              intro d hd
              cases hDz : stripZeros (((rest.dropWhile isUp).dropWhile
                  isWs).takeWhile isDig) with
              | nil => exact absurd hDz (stripZeros_ne_nil _)
              | cons z zs =>
                rw [hDz] at hd
                simp only [List.cons_append, List.head?_cons, Option.some.injEq] at hd
                exact dig_not_ws (hd ▸ hD'' z (by rw [hDz]; exact List.mem_cons_self _ _))
            · refine wsOk_append_nonws (fun a ha => dig_not_ws (hD'' a ha)) ?_
              refine wsOk_append_nonws
                (fun a ha => up_not_ws (List.mem_takeWhile_imp ha)) ?_
              exact ih _ hrlen hr_wsOk
      · rw [regexSub_cons_copy rest hc]
        exact hcopy

/-! ### Character membership through the pipeline -/

theorem map_eq_self_of_fixed {f : Char → Char} {l : List Char}
    (h : ∀ c ∈ l, f c = c) : l.map f = l := by
  induction l with
  | nil => rfl
  | cons c rest ih =>
    rw [List.map_cons, h c (List.mem_cons_self _ _),
      ih (fun c' hc' => h c' (List.mem_cons_of_mem _ hc'))]

theorem mem_stripZeros {D : List Char} {c : Char} (hD : D ≠ [])
    (hc : c ∈ stripZeros D) : c ∈ D := by
  unfold stripZeros at hc
  split at hc
  · rename_i hz
    rw [List.isEmpty_iff, List.dropWhile_eq_nil_iff] at hz
    obtain rfl : c = '0' := List.mem_singleton.mp hc
    cases hDc : D with
    | nil => exact absurd hDc hD
    | cons d D' =>
      have hd0 : d = '0' := beq_iff_eq.mp (hz d (by rw [hDc]; exact List.mem_cons_self _ _))
      rw [hd0]
      exact List.mem_cons_self _ _
  · exact (List.dropWhile_sublist _).subset hc

theorem mem_regexSub {l : List Char} {c : Char} (hc : c ∈ regexSub l) :
    c ∈ l ∨ c = ' ' := by
  suffices H : ∀ n (l : List Char), l.length ≤ n → ∀ c ∈ regexSub l, c ∈ l ∨ c = ' ' from
    H l.length l (le_refl _) c hc
  clear hc
  intro n
  induction n with
  | zero =>
    intro l hl c hc
    obtain rfl : l = [] := List.length_eq_zero.mp (Nat.le_zero.mp hl)
    exact absurd hc (by simp [regexSub_nil])
  | succ n ih =>
    intro l hl c hc
    cases l with
    | nil => exact absurd hc (by simp [regexSub_nil])
    | cons a rest =>
      have hrest : rest.length ≤ n := by simpa using hl
      have hcopy : c ∈ a :: regexSub rest → c ∈ a :: rest ∨ c = ' ' := by
        intro hmem
        rcases List.mem_cons.mp hmem with h' | h'
        · exact Or.inl (h' ▸ List.mem_cons_self _ _)
        · rcases ih rest hrest c h' with h'' | h''
          · exact Or.inl (List.mem_cons_of_mem _ h'')
          · exact Or.inr h''
      rcases Bool.eq_false_or_eq_true (isUp a) with ha | ha
      · by_cases hD : ((rest.dropWhile isUp).dropWhile isWs).takeWhile isDig = []
        · rw [regexSub_cons_noMatch ha hD] at hc
          exact hcopy hc
        · rw [regexSub_cons_match ha hD] at hc
          have hsub2 : ((rest.dropWhile isUp).dropWhile isWs).takeWhile isDig ⊆ rest :=
            ((List.takeWhile_sublist _).trans
              ((List.dropWhile_sublist _).trans (List.dropWhile_sublist _))).subset
          have hsub3 : (((rest.dropWhile isUp).dropWhile isWs).dropWhile
              isDig).takeWhile isUp ⊆ rest :=
            ((List.takeWhile_sublist _).trans ((List.dropWhile_sublist _).trans
              ((List.dropWhile_sublist _).trans (List.dropWhile_sublist _)))).subset
          have hrlen : ((((rest.dropWhile isUp).dropWhile isWs).dropWhile
              isDig).dropWhile isUp).length ≤ n :=
            le_trans (le_trans (length_dropWhile_le _ _) (le_trans (length_dropWhile_le _ _)
              (le_trans (length_dropWhile_le _ _) (length_dropWhile_le _ _)))) hrest
          have hsub4 : (((rest.dropWhile isUp).dropWhile isWs).dropWhile
              isDig).dropWhile isUp ⊆ rest :=
            ((List.dropWhile_sublist _).trans ((List.dropWhile_sublist _).trans
              ((List.dropWhile_sublist _).trans (List.dropWhile_sublist _)))).subset
          rcases List.mem_append.mp hc with h1 | h1
          · rcases List.mem_cons.mp h1 with h2 | h2
            · exact Or.inl (h2 ▸ List.mem_cons_self _ _)
            · exact Or.inl (List.mem_cons_of_mem _
                ((List.takeWhile_sublist _).subset h2))
          · rcases List.mem_cons.mp h1 with h2 | h2
            · exact Or.inr h2
            · rcases List.mem_append.mp h2 with h3 | h3
              · exact Or.inl (List.mem_cons_of_mem _
                  (hsub2 (mem_stripZeros (by simpa [List.isEmpty_iff] using hD) h3)))
              · rcases List.mem_append.mp h3 with h4 | h4
                · exact Or.inl (List.mem_cons_of_mem _ (hsub3 h4))
                · rcases ih _ hrlen c h4 with h5 | h5
                  · exact Or.inl (List.mem_cons_of_mem _ (hsub4 h5))
                  · exact Or.inr h5
      · rw [regexSub_cons_copy rest ha] at hc
        exact hcopy hc

theorem mem_collapseGo {l : List Char} {c : Char} :
    ∀ b, c ∈ collapseGo b l → c ∈ l ∨ c = ' ' := by
  induction l with
  | nil => intro b hc; exact absurd hc (by simp [collapseGo])
  | cons a rest ih =>
    intro b hc
    unfold collapseGo at hc
    split at hc
    · split at hc
      · rcases ih true hc with h | h
        · exact Or.inl (List.mem_cons_of_mem _ h)
        · exact Or.inr h
      · rcases List.mem_cons.mp hc with h | h
        · exact Or.inr h
        · rcases ih true h with h' | h'
          · exact Or.inl (List.mem_cons_of_mem _ h')
          · exact Or.inr h'
    · rcases List.mem_cons.mp hc with h | h
      · exact Or.inl (h ▸ List.mem_cons_self _ _)
      · rcases ih false h with h' | h'
        · exact Or.inl (List.mem_cons_of_mem _ h')
        · exact Or.inr h'

theorem mem_pytrim {l : List Char} {c : Char} (hc : c ∈ pytrim l) : c ∈ l := by
  unfold pytrim trimRight trimLeft at hc
  rw [List.mem_reverse] at hc
  have h1 := (List.dropWhile_sublist (l := (l.dropWhile isWs).reverse) isWs).subset hc
  rw [List.mem_reverse] at h1
  exact (List.dropWhile_sublist _).subset h1

/-- Every character of `step1`'s output is fixed by `upChar`, is not a
removed punctuation character, and the whole output is whitespace-collapsed. -/
theorem step1_chars {x : List Char} :
    ∀ c ∈ step1 x, upChar c = c ∧ (c == '.' || c == '(' || c == ')') = false := by
  intro c hc
  unfold step1 at hc
  rcases mem_collapseGo false hc with h | h
  · unfold removeDots at h
    rw [List.mem_filter] at h
    obtain ⟨h1, h2⟩ := h
    obtain ⟨a, _, ha⟩ := List.mem_map.mp h1
    exact ⟨ha ▸ upChar_idem a, by simpa using h2⟩
  · subst h
    exact ⟨rfl, rfl⟩

/-! ### C1 — idempotence of normalization -/

theorem wsOk_append_right {A B : List Char} (h : wsOk (A ++ B) = true) :
    wsOk B = true := by
  induction A with
  | nil => exact h
  | cons a A ih =>
    rw [List.cons_append] at h
    exact ih (wsOk_tail h)

theorem normalize_chars_of_none {l : List Char} {j : String}
    (hj : lookupPrefixTbl j = none) :
    normalize_chars l j = pytrim (regexSub (step1 l)) := by
  unfold normalize_chars
  rw [hj]

theorem normalize_chars_idem_of_none {l : List Char} {j : String}
    (hj : lookupPrefixTbl j = none) :
    normalize_chars (normalize_chars l j) j = normalize_chars l j := by
  rw [normalize_chars_of_none hj, normalize_chars_of_none hj]
  -- facts about the once-normalized string y
  have hychars : ∀ c ∈ pytrim (regexSub (step1 l)),
      upChar c = c ∧ (c == '.' || c == '(' || c == ')') = false := by
    intro c hc
    rcases mem_regexSub (mem_pytrim hc) with h | h
    · exact step1_chars c h
    · subst h
      exact ⟨rfl, rfl⟩
  have htrim : pytrim (pytrim (regexSub (step1 l))) = pytrim (regexSub (step1 l)) :=
    pytrim_idem _
  have hmap : (pytrim (regexSub (step1 l))).map upChar = pytrim (regexSub (step1 l)) :=
    map_eq_self_of_fixed (fun c hc => (hychars c hc).1)
  have hfilter : removeDots (pytrim (regexSub (step1 l))) = pytrim (regexSub (step1 l)) := by
    unfold removeDots
    rw [List.filter_eq_self]
    intro c hc
    simp [(hychars c hc).2]
  have hwsOk : wsOk (pytrim (regexSub (step1 l))) = true := by
    have hw : wsOk (regexSub (step1 l)) = true := by
      apply wsOk_regexSub
      show wsOk (collapseWs _) = true
      exact wsOk_collapseWs _
    obtain ⟨hdec, _, _⟩ := pytrim_decomp (regexSub (step1 l))
    rw [hdec] at hw
    exact wsOk_of_append_left (wsOk_append_right hw)
  have hstep1 : step1 (pytrim (regexSub (step1 l))) = pytrim (regexSub (step1 l)) := by
    rw [show step1 (pytrim (regexSub (step1 l)))
        = collapseWs (removeDots
            ((pytrim (pytrim (regexSub (step1 l)))).map upChar)) from rfl]
    rw [htrim, hmap, hfilter, collapseWs_eq_self hwsOk]
  rw [hstep1, regexSub_pytrim_fix (regexSub_idem (step1 l)), htrim]

/-- **C1 (amended).** For every input string `x` and every jurisdiction
`j` *without* a registered prefix-substitution table, normalization is
idempotent: `normalize(normalize(x, j), j) = normalize(x, j)`. -/
theorem c1_amended_idempotent (x j : String) (hj : lookupPrefixTbl j = none) :
    normalize_bill (some (normalize_bill (some x) j)) j = normalize_bill (some x) j :=
  congrArg String.mk (normalize_chars_idem_of_none hj)

/-- **C1 (counterexample).** For the jurisdiction `"Massachusetts"`, whose
prefix table maps `HB → H`, normalization is *not* idempotent:
`normalize("HBB5") = "HB 5"` (the first `HB` becomes `H`), but normalizing
`"HB 5"` again substitutes once more, giving `"H 5"`. -/
theorem c1_counterexample :
    normalize_bill (some (normalize_bill (some "HBB5") "Massachusetts")) "Massachusetts"
      ≠ normalize_bill (some "HBB5") "Massachusetts" := by
  decide

/-- Witness for C1 at a concrete jurisdiction without a prefix table. -/
theorem c1_witness :
    lookupPrefixTbl "Texas" = none
    ∧ normalize_bill (some (normalize_bill (some "HB007") "Texas")) "Texas"
        = normalize_bill (some "HB007") "Texas" := by
  refine ⟨by decide, c1_amended_idempotent "HB007" "Texas" (by decide)⟩

/-! ### C9 — leading-zero stripping and single-space rejoining -/

/-- On a string of the shape letters · whitespace · digits · letter-suffix,
the regex substitution produces letters, one space, zero-stripped digits
and the suffix. -/
theorem regexSub_shaped {L sp D S : List Char}
    (hL : L ≠ []) (hLup : ∀ c ∈ L, isUp c = true)
    (hsp : ∀ c ∈ sp, isWs c = true)
    (hD : D ≠ []) (hDdig : ∀ c ∈ D, isDig c = true)
    (hSup : ∀ c ∈ S, isUp c = true) :
    regexSub (L ++ (sp ++ (D ++ S))) = L ++ ' ' :: (stripZeros D ++ S) := by
  have hXhead : ∀ x, (sp ++ (D ++ S)).head? = some x → isUp x = false := by
    intro x hx
    cases hspc : sp with
    | cons s sp' =>
      rw [hspc] at hx
      simp only [List.cons_append, List.head?_cons, Option.some.injEq] at hx
      exact ws_not_up (hx ▸ hsp s (by rw [hspc]; exact List.mem_cons_self _ _))
    | nil =>
      rw [hspc, List.nil_append] at hx
      cases hDc : D with
      | nil => exact absurd hDc hD
      | cons d D' =>
        rw [hDc] at hx
        simp only [List.cons_append, List.head?_cons, Option.some.injEq] at hx
        exact dig_not_up (hx ▸ hDdig d (by rw [hDc]; exact List.mem_cons_self _ _))
  have hDShead : ∀ x, (D ++ S).head? = some x → isWs x = false ∧ isUp x = false := by
    intro x hx
    cases hDc : D with
    | nil => exact absurd hDc hD
    | cons d D' =>
      rw [hDc] at hx
      simp only [List.cons_append, List.head?_cons, Option.some.injEq] at hx
      have := hDdig d (by rw [hDc]; exact List.mem_cons_self _ _)
      exact ⟨dig_not_ws (hx ▸ this), dig_not_up (hx ▸ this)⟩
  have hShead : ∀ x, S.head? = some x → isDig x = false := by
    intro x hx
    cases hSc : S with
    | nil => exact absurd hx (by rw [hSc]; simp)
    | cons s S' =>
      rw [hSc] at hx
      simp only [List.head?_cons, Option.some.injEq] at hx
      exact up_not_dig (hx ▸ hSup s (by rw [hSc]; exact List.mem_cons_self _ _))
  cases hLc : L with
  | nil => exact absurd hLc hL
  | cons c L1 =>
    have hc : isUp c = true := hLup c (by rw [hLc]; exact List.mem_cons_self _ _)
    have hL1up : ∀ a ∈ L1, isUp a = true :=
      fun a ha => hLup a (by rw [hLc]; exact List.mem_cons_of_mem _ ha)
    have hdwUp : (L1 ++ (sp ++ (D ++ S))).dropWhile isUp = sp ++ (D ++ S) := by
      rw [List.dropWhile_append_of_pos hL1up]
      exact dropWhile_eq_self_of_head hXhead
    have htwUp : (L1 ++ (sp ++ (D ++ S))).takeWhile isUp = L1 := by
      rw [List.takeWhile_append_of_pos hL1up, takeWhile_nil_of_head hXhead,
        List.append_nil]
    have hdwWs : (sp ++ (D ++ S)).dropWhile isWs = D ++ S := by
      rw [List.dropWhile_append_of_pos hsp]
      exact dropWhile_eq_self_of_head (fun x hx => (hDShead x hx).1)
    have htwDig : (D ++ S).takeWhile isDig = D := by
      rw [List.takeWhile_append_of_pos hDdig, takeWhile_nil_of_head hShead,
        List.append_nil]
    have hdwDig : (D ++ S).dropWhile isDig = S := by
      rw [List.dropWhile_append_of_pos hDdig]
      exact dropWhile_eq_self_of_head hShead
    rw [List.cons_append]
    rw [regexSub_cons_match hc (by rw [hdwUp, hdwWs, htwDig]; exact hD)]
    rw [hdwUp, hdwWs, htwDig, hdwDig, htwUp, takeWhile_eq_self_of_all hSup,
      List.dropWhile_eq_nil_iff.mpr hSup, regexSub_nil, List.append_nil]

theorem eq_append_of_isPrefixOf {P L : List Char} (h : P.isPrefixOf L = true) :
    ∃ L2, L = P ++ L2 := by
  induction P generalizing L with
  | nil => exact ⟨L, rfl⟩
  | cons p P' ih =>
    cases L with
    | nil => exact absurd h (by simp [List.isPrefixOf])
    | cons a L' =>
      unfold List.isPrefixOf at h
      rw [Bool.and_eq_true] at h
      obtain ⟨h1, h2⟩ := h
      obtain ⟨L2, hL2⟩ := ih h2
      exact ⟨L2, by rw [List.cons_append, ← hL2, beq_iff_eq.mp h1]⟩

/-- A nonempty all-uppercase pattern that is a prefix of a shaped string
`L ++ X` (where `L` is all uppercase and `X` starts with a non-letter)
is in fact a prefix of `L`. -/
theorem upper_isPrefixOf_left {P L X : List Char}
    (hP : ∀ c ∈ P, isUp c = true)
    (hX : ∀ x, X.head? = some x → isUp x = false)
    (h : P.isPrefixOf (L ++ X) = true) :
    ∃ L2, L = P ++ L2 := by
  induction P generalizing L with
  | nil => exact ⟨L, rfl⟩
  | cons p P' ih =>
    cases L with
    | nil =>
      rw [List.nil_append] at h
      cases hXc : X with
      | nil =>
        rw [hXc] at h
        exact absurd h (by simp [List.isPrefixOf])
      | cons x X' =>
        rw [hXc] at h
        unfold List.isPrefixOf at h
        rw [Bool.and_eq_true] at h
        have hup : isUp p = true := hP p (List.mem_cons_self _ _)
        have hnup : isUp x = false := hX x (by rw [hXc]; rfl)
        rw [beq_iff_eq.mp h.1] at hup
        rw [hup] at hnup
        exact absurd hnup (by simp)
    | cons a L' =>
      rw [List.cons_append] at h
      unfold List.isPrefixOf at h
      rw [Bool.and_eq_true] at h
      obtain ⟨h1, h2⟩ := h
      obtain ⟨L2, hL2⟩ := ih (fun c hc => hP c (List.mem_cons_of_mem _ hc)) h2
      exact ⟨L2, by rw [List.cons_append, ← hL2, beq_iff_eq.mp h1]⟩

theorem replaceFirst_of_head {s old new : List Char} (hpre : old.isPrefixOf s = true)
    (hs : s ≠ []) : replaceFirst s old new = new ++ s.drop old.length := by
  cases s with
  | nil => exact absurd rfl hs
  | cons c t =>
    unfold replaceFirst
    rw [if_pos hpre]

/-- The prefix-substitution fold preserves the letters·ws·digits·suffix
shape, rewriting only the leading letter run. -/
theorem applyPrefixTbl_shaped (X : List Char)
    (hX : ∀ x, X.head? = some x → isUp x = false) :
    ∀ (tbl : List (String × String)),
    (∀ e ∈ tbl, e.1.data ≠ [] ∧ (∀ c ∈ e.1.data, isUp c = true)
      ∧ e.2.data ≠ [] ∧ (∀ c ∈ e.2.data, isUp c = true)) →
    ∀ L : List Char, L ≠ [] → (∀ c ∈ L, isUp c = true) →
    ∃ L', L' ≠ [] ∧ (∀ c ∈ L', isUp c = true)
      ∧ applyPrefixTbl tbl (L ++ X) = L' ++ X := by
  intro tbl
  induction tbl with
  | nil => intro _ L hL hLup; exact ⟨L, hL, hLup, rfl⟩
  | cons e rest ih =>
    intro htbl L hL hLup
    obtain ⟨hw_ne, hw_up, hc_ne, hc_up⟩ := htbl e (List.mem_cons_self _ _)
    have htbl' := fun e' he' => htbl e' (List.mem_cons_of_mem _ he')
    unfold applyPrefixTbl
    rw [List.foldl_cons]
    by_cases hpre : e.1.data.isPrefixOf (L ++ X) = true
    · rw [if_pos hpre]
      obtain ⟨L2, hL2⟩ := upper_isPrefixOf_left hw_up hX hpre
      have hLX : L ++ X = e.1.data ++ (L2 ++ X) := by
        rw [hL2, List.append_assoc]
      have hstep : replaceFirst (L ++ X) e.1.data e.2.data
          = (e.2.data ++ L2) ++ X := by
        rw [replaceFirst_of_head hpre (by simp [hL2, hw_ne])]
        rw [hLX, List.drop_left' rfl, List.append_assoc]
      rw [hstep]
      have hnew_ne : e.2.data ++ L2 ≠ [] := by simp [hc_ne]
      have hnew_up : ∀ c ∈ e.2.data ++ L2, isUp c = true := by
        intro c hc
        rcases List.mem_append.mp hc with h | h
        · exact hc_up c h
        · exact hLup c (by rw [hL2]; exact List.mem_append_right _ h)
      exact ih htbl' (e.2.data ++ L2) hnew_ne hnew_up
    · rw [if_neg hpre]
      exact ih htbl' L hL hLup

/-- The produced block has no leading or trailing whitespace, so the final
`.strip()` leaves it unchanged. -/
theorem pytrim_block {L D'' S : List Char}
    (hL : L ≠ []) (hLup : ∀ c ∈ L, isUp c = true)
    (hD'' : D'' ≠ []) (hD''dig : ∀ c ∈ D'', isDig c = true)
    (hSup : ∀ c ∈ S, isUp c = true) :
    pytrim (L ++ ' ' :: (D'' ++ S)) = L ++ ' ' :: (D'' ++ S) := by
  apply pytrim_eq_self
  · intro x hx
    cases hLc : L with
    | nil => exact absurd hLc hL
    | cons c L1 =>
      rw [hLc] at hx
      simp only [List.cons_append, List.head?_cons, Option.some.injEq] at hx
      exact up_not_ws (hx ▸ hLup c (by rw [hLc]; exact List.mem_cons_self _ _))
  · intro x hx
    have hDS_ne : D'' ++ S ≠ [] := by
      intro hnil
      exact hD'' (List.append_eq_nil.mp hnil).1
    rw [show L ++ ' ' :: (D'' ++ S) = L ++ ([' '] ++ (D'' ++ S)) from rfl,
      List.reverse_append, List.reverse_append] at hx
    cases hrev : (D'' ++ S).reverse with
    | nil => exact absurd (List.reverse_eq_nil_iff.mp hrev) hDS_ne
    | cons z zs =>
      rw [hrev] at hx
      simp only [List.cons_append, List.head?_cons, Option.some.injEq] at hx
      have hz : z ∈ D'' ++ S := by
        rw [← List.mem_reverse, hrev]
        exact List.mem_cons_self _ _
      rcases List.mem_append.mp hz with h | h
      · exact dig_not_ws (hx ▸ hD''dig z h)
      · exact up_not_ws (hx ▸ hSup z h)

theorem lookupPrefixTbl_entries_upper {j : String} {tbl : List (String × String)}
    (hl : lookupPrefixTbl j = some tbl) :
    ∀ e ∈ tbl, e.1.data ≠ [] ∧ (∀ c ∈ e.1.data, isUp c = true)
      ∧ e.2.data ≠ [] ∧ (∀ c ∈ e.2.data, isUp c = true) := by
  unfold lookupPrefixTbl at hl
  rw [Option.map_eq_some'] at hl
  obtain ⟨a, hfind, hsnd⟩ := hl
  have hmem : a ∈ STATE_PREFIX_MAP := List.mem_of_find?_eq_some hfind
  subst hsnd
  simp only [STATE_PREFIX_MAP, List.mem_cons, List.not_mem_nil, or_false] at hmem
  rcases hmem with h | h | h | h | h | h <;> subst h <;> decide

/-- **C9.** For every input whose cleaned form (after stripping, upper-casing,
punctuation removal and whitespace collapsing) is a leading letter-run,
optional whitespace, a digit run and an optional letter suffix,
`normalize_bill` strips the leading zeros from the digit run and re-joins a
letter-run and the digit+suffix run with exactly one space.  The letter run
is the original one whenever the jurisdiction has no prefix-substitution
table (prefix substitution may rewrite it, but the shape is preserved). -/
theorem c9_zero_stripping (x j : String) (L sp D S : List Char)
    (hstep : step1 x.data = L ++ (sp ++ (D ++ S)))
    (hL : L ≠ []) (hLup : ∀ c ∈ L, isUp c = true)
    (hsp : ∀ c ∈ sp, isWs c = true)
    (hD : D ≠ []) (hDdig : ∀ c ∈ D, isDig c = true)
    (hSup : ∀ c ∈ S, isUp c = true) :
    ∃ L', L' ≠ [] ∧ (∀ c ∈ L', isUp c = true)
      ∧ normalize_bill (some x) j = String.mk (L' ++ ' ' :: (stripZeros D ++ S))
      ∧ (lookupPrefixTbl j = none → L' = L) := by
  have hXhead : ∀ y, (sp ++ (D ++ S)).head? = some y → isUp y = false := by
    intro y hy
    cases hspc : sp with
    | cons s sp' =>
      rw [hspc] at hy
      simp only [List.cons_append, List.head?_cons, Option.some.injEq] at hy
      exact ws_not_up (hy ▸ hsp s (by rw [hspc]; exact List.mem_cons_self _ _))
    | nil =>
      rw [hspc, List.nil_append] at hy
      cases hDc : D with
      | nil => exact absurd hDc hD
      | cons d D' =>
        rw [hDc] at hy
        simp only [List.cons_append, List.head?_cons, Option.some.injEq] at hy
        exact dig_not_up (hy ▸ hDdig d (by rw [hDc]; exact List.mem_cons_self _ _))
  have hD''dig : ∀ c ∈ stripZeros D, isDig c = true := stripZeros_digits hDdig
  cases hlk : lookupPrefixTbl j with
  | none =>
    refine ⟨L, hL, hLup, ?_, fun _ => rfl⟩
    show String.mk (normalize_chars x.data j) = _
    rw [normalize_chars_of_none hlk, hstep,
      regexSub_shaped hL hLup hsp hD hDdig hSup,
      pytrim_block hL hLup (stripZeros_ne_nil D) hD''dig hSup]
  | some tbl =>
    obtain ⟨L', hL'ne, hL'up, happ⟩ :=
      applyPrefixTbl_shaped (sp ++ (D ++ S)) hXhead tbl
        (lookupPrefixTbl_entries_upper hlk) L hL hLup
    refine ⟨L', hL'ne, hL'up, ?_, ?_⟩
    · show String.mk (normalize_chars x.data j) = _
      unfold normalize_chars
      rw [hlk, hstep]
      show String.mk (pytrim (regexSub (applyPrefixTbl tbl (L ++ (sp ++ (D ++ S)))))) = _
      rw [happ,
        regexSub_shaped hL'ne hL'up hsp hD hDdig hSup,
        pytrim_block hL'ne hL'up (stripZeros_ne_nil D) hD''dig hSup]
    · intro hnone
      exact Option.noConfusion hnone

/-- Witness for C9 on the spec's two examples:
`normalize("HB007", "Texas") = "HB 7"` and the canonical form of
`"SF 0012A"` is `"SF 12A"`. -/
theorem c9_witness :
    normalize_bill (some "HB007") "Texas" = "HB 7"
    ∧ normalize_bill (some "SF 0012A") "Texas" = "SF 12A" := by
  constructor
  · obtain ⟨L', _, _, heq, hnone⟩ :=
      c9_zero_stripping "HB007" "Texas" ('H' :: 'B' :: []) [] ('0' :: '0' :: '7' :: []) []
        (by decide) (by decide) (by decide) (by decide) (by decide) (by decide) (by decide)
    rw [heq, hnone (by decide)]
    decide
  · obtain ⟨L', _, _, heq, hnone⟩ :=
      c9_zero_stripping "SF 0012A" "Texas" ('S' :: 'F' :: []) [' ']
        ('0' :: '0' :: '1' :: '2' :: []) ['A']
        (by decide) (by decide) (by decide) (by decide) (by decide) (by decide) (by decide)
    rw [heq, hnone (by decide)]
    decide

end BillMonitor
